import Mathlib

/-!
Verification of the MSDB embedded key-value store (base-MSDB-TS).

This file shallowly embeds the core of the repository:
the LRU cache (`LRUCache` in the source), the shard store (`FileManager`),
the in-memory data manager and table facade (`DataManager` and the object
returned by `initializeDatabase`), and the legacy single-table implementation
(`src/msdb.ts`).  JavaScript `Map`s and objects are modelled as
insertion-ordered association lists, JS numbers used for sizes and counters
as `Nat`/`Int`, and the JSON payload of a record as an association list over
an abstract value type `V` with decidable equality.  Asynchronous queues are
modelled as explicit lists processed by explicit drain functions.
-/

namespace MSDB

/-! ### Association-list primitives for JS `Map` / plain objects

A JS `Map` (and a plain object used as a dictionary) is an insertion-ordered
collection of key-value pairs with unique keys: setting an existing key
updates it in place, setting a fresh key appends.  -/

/-- Lookup in an insertion-ordered association list (JS `map.get(k)` /
`obj[k]`). -/
def mapGet {κ β : Type} [DecidableEq κ] (m : List (κ × β)) (k : κ) : Option β :=
  (m.find? (fun p => p.1 = k)).map (fun p => p.2)

/-- JS `map.set(k, v)` / `obj[k] = v`: update in place when the key exists,
append otherwise. -/
def mapSet {κ β : Type} [DecidableEq κ] (m : List (κ × β)) (k : κ) (v : β) :
    List (κ × β) :=
  if m.any (fun p => p.1 = k) then
    m.map (fun p => if p.1 = k then (k, v) else p)
  else
    m ++ [(k, v)]

/-- JS `map.delete(k)` / `delete obj[k]`: remove the entry with the key. -/
def mapDel {κ β : Type} [DecidableEq κ] (m : List (κ × β)) (k : κ) :
    List (κ × β) :=
  m.filter (fun p => ¬ p.1 = k)

/-- JS `map.has(k)` / `k in obj`. -/
def mapHas {κ β : Type} [DecidableEq κ] (m : List (κ × β)) (k : κ) : Bool :=
  m.any (fun p => p.1 = k)

/-! ### The bounded LRU cache (`class LRUCache` in the source)

The cache state carries the `Map` of entries, the access order array, the
two configured bounds, the running byte total (a JS number, so `Int`), and
the hit/miss counters.  The byte size of a value
(`JSON.stringify(value).length * 2` in the source) is an abstract
parameter `sizeOf`; the spec only requires a deterministic proxy. -/

/-- One cache slot: `{value, accessTime, size}` in `LRUCache.cache`. -/
structure CacheSlot (α : Type) where
  value : α
  accessTime : Nat
  size : Nat
deriving DecidableEq

/-- The mutable fields of `LRUCache`. -/
structure LRUState (α : Type) where
  cache : List (String × CacheSlot α)
  accessOrder : List String
  maxSize : Nat
  maxMemoryMB : Nat
  currentMemoryBytes : Int
  hitCount : Nat
  missCount : Nat

/-- The byte budget `maxMemoryMB * 1024 * 1024` used by `evictLRU`. -/
def LRUState.budget {α : Type} (st : LRUState α) : Int :=
  (st.maxMemoryMB : Int) * 1024 * 1024

/-- A freshly constructed `LRUCache(maxSize, maxMemoryMB)`. -/
def lruInit (α : Type) (maxSize maxMemoryMB : Nat) : LRUState α :=
  { cache := []
    accessOrder := []
    maxSize := maxSize
    maxMemoryMB := maxMemoryMB
    currentMemoryBytes := 0
    hitCount := 0
    missCount := 0 }

/-- `updateAccessOrder(key)`: splice the key out of the order array (first
occurrence, as `indexOf`/`splice` does) and push it to the back. -/
def lruTouch {α : Type} (st : LRUState α) (k : String) : LRUState α :=
  { st with accessOrder := st.accessOrder.erase k ++ [k] }

/-- The loop body of `evictLRU`, structurally recursive on the access-order
array: while the array is nonempty and the entry count is at or above
`maxSize` or the byte total exceeds the budget, shift the oldest key and
drop it from the map, subtracting its recorded size.  The eviction event is
only a notification and carries no state. -/
def lruEvictGo {α : Type} (maxSize : Nat) (budget : Int) :
    List String → List (String × CacheSlot α) → Int →
    List String × List (String × CacheSlot α) × Int
  | [], cache, mem => ([], cache, mem)
  | k :: rest, cache, mem =>
    if cache.length ≥ maxSize ∨ mem > budget then
      match mapGet cache k with
      | some slot => lruEvictGo maxSize budget rest (mapDel cache k) (mem - slot.size)
      | none => lruEvictGo maxSize budget rest cache mem
    else (k :: rest, cache, mem)

/-- `evictLRU()`. -/
def lruEvict {α : Type} (st : LRUState α) : LRUState α :=
  let r := lruEvictGo st.maxSize st.budget st.accessOrder st.cache st.currentMemoryBytes
  { st with accessOrder := r.1, cache := r.2.1, currentMemoryBytes := r.2.2 }

/-- `set(key, value)`: subtract the replaced slot's size if the key exists,
store the new slot with the current time, add its size, refresh recency, and
run eviction.  `now` stands for `Date.now()`. -/
def lruSet {α : Type} (sizeOf : α → Nat) (st : LRUState α) (k : String)
    (v : α) (now : Nat) : LRUState α :=
  let size := sizeOf v
  let st1 :=
    match mapGet st.cache k with
    | some old => { st with currentMemoryBytes := st.currentMemoryBytes - old.size }
    | none => st
  let st2 := { st1 with
    cache := mapSet st1.cache k { value := v, accessTime := now, size := size }
    currentMemoryBytes := st1.currentMemoryBytes + size }
  lruEvict (lruTouch st2 k)

/-- `get(key)`: on a hit refresh the access time and recency and bump the
hit counter; on a miss bump the miss counter and return `null`. -/
def lruGet {α : Type} (st : LRUState α) (k : String) (now : Nat) :
    Option α × LRUState α :=
  match mapGet st.cache k with
  | some slot =>
      (some slot.value,
        lruTouch
          { st with
            cache := mapSet st.cache k ({ slot with accessTime := now })
            hitCount := st.hitCount + 1 }
          k)
  | none => (none, { st with missCount := st.missCount + 1 })

/-- `delete(key)`: subtract the slot's size, splice the key from the order
array, and drop it from the map; report whether it was present. -/
def lruDelete {α : Type} (st : LRUState α) (k : String) :
    LRUState α × Bool :=
  match mapGet st.cache k with
  | some slot =>
      ({ st with
          cache := mapDel st.cache k
          accessOrder := st.accessOrder.erase k
          currentMemoryBytes := st.currentMemoryBytes - slot.size }, true)
  | none => (st, false)

/-- `clear()`. -/
def lruClear {α : Type} (st : LRUState α) : LRUState α :=
  { st with
    cache := []
    accessOrder := []
    currentMemoryBytes := 0
    hitCount := 0
    missCount := 0 }

/-- `CONFIG.CACHE.LRU_MAX_AGE`. -/
def LRU_MAX_AGE : Nat := 3600000

/-- The periodic `cleanup()` sweep: delete every entry whose age exceeds the
max age.  The source iterates the live map while deleting the current key,
which is equivalent to folding `delete` over the keys of the expired entries
of the pre-sweep map. -/
def lruCleanup {α : Type} (st : LRUState α) (now : Nat) : LRUState α :=
  (st.cache.filter (fun p => now - p.2.accessTime > LRU_MAX_AGE)).foldl
    (fun acc p => (lruDelete acc p.1).1) st

/-- The operations a caller (or the periodic sweep) can run on the cache,
each carrying the `Date.now()` value it observes where the source reads the
clock. -/
inductive CacheOp (α : Type) where
  | set (k : String) (v : α) (now : Nat)
  | get (k : String) (now : Nat)
  | del (k : String)
  | clear
  | cleanup (now : Nat)

/-- Run one cache operation. -/
def applyCacheOp {α : Type} (sizeOf : α → Nat) (st : LRUState α) :
    CacheOp α → LRUState α
  | .set k v now => lruSet sizeOf st k v now
  | .get k now => (lruGet st k now).2
  | .del k => (lruDelete st k).1
  | .clear => lruClear st
  | .cleanup now => lruCleanup st now

/-- Run a sequence of cache operations from a fresh cache. -/
def applyCacheOps {α : Type} (sizeOf : α → Nat) (st : LRUState α)
    (ops : List (CacheOp α)) : LRUState α :=
  ops.foldl (applyCacheOp sizeOf) st

/-! #### Well-formedness and the eviction bound (claim C4) -/

/-- The running byte total tracked by the cache. -/
def sumSizes {α : Type} (m : List (String × CacheSlot α)) : Int :=
  (m.map (fun p => (p.2.size : Int))).sum

/-- Structural well-formedness of a cache state: keys are unique, the access
order array is a permutation-free listing of exactly the cached keys, every
slot records a consistent size, and the running byte total is the sum of the
recorded sizes. -/
structure LRUWf {α : Type} (st : LRUState α) : Prop where
  keysNodup : (st.cache.map Prod.fst).Nodup
  orderNodup : st.accessOrder.Nodup
  orderKeys : ∀ k, k ∈ st.accessOrder ↔ k ∈ st.cache.map Prod.fst
  memSum : st.currentMemoryBytes = sumSizes st.cache

/-- The two configured bounds of the claim. -/
def LRUBounded {α : Type} (st : LRUState α) : Prop :=
  st.cache.length ≤ st.maxSize ∧ st.currentMemoryBytes ≤ st.budget

/-! ### String ordering

`a.localeCompare(b)` (and JS's default array sort on strings) is modelled
as code-point lexicographic comparison; the ids exercised by the spec are
plain ASCII, where locale collation and code-point order agree.  The
comparator is written as a recursive boolean so concrete instances reduce
inside the kernel. -/

/-- Lexicographic less-or-equal on code-point lists. -/
def charListLeb : List Char → List Char → Bool
  | [], _ => true
  | _ :: _, [] => false
  | a :: as, b :: bs =>
    if a.toNat < b.toNat then true
    else if b.toNat < a.toNat then false
    else charListLeb as bs

/-- `a.localeCompare(b) <= 0` under the code-point model. -/
def strLe (a b : String) : Prop := charListLeb a.data b.data = true

instance : DecidableRel strLe := fun a b => by
  unfold strLe
  infer_instance

/-! ### Data model

A record payload is a JSON-like object over an abstract value type `V`
(`value: T` in the source); `DatabaseEntry` is the record wrapper the
`DataManager` builds in `save`. -/

/-- A JSON-like object payload: field name to field value. -/
abbrev Value (V : Type) : Type := List (String × V)

/-- `interface DatabaseEntry<T>` of the main implementation. -/
structure DatabaseEntry (V : Type) where
  id : String
  value : Value V
  created_at : Nat
  updated_at : Nat
  version : Nat
deriving DecidableEq

/-- A decoded shard file: a JS object mapping record id to record
(`Record<string, any>` holding `DatabaseEntry`s). -/
abbrev Shard (V : Type) : Type := List (String × DatabaseEntry V)

/-! ### Configuration constants of `CONFIG` used by the claims -/

/-- `CONFIG.FILE_SETTINGS.MAX_ENTRIES_PER_FILE`. -/
def MAX_ENTRIES_PER_FILE : Nat := 5000

/-- `CONFIG.PERFORMANCE.BATCH_SIZE`. -/
def BATCH_SIZE : Nat := 100

/-- `String.prototype.padStart(n, c)`. -/
def padStart (s : String) (n : Nat) (c : Char) : String :=
  String.mk (List.replicate (n - s.length) c) ++ s

/-- `getCurrentFilePath` for shard index `i` (basename only; the base
directory is a fixed prefix of every path and is dropped): the file prefix,
a dot, the five-digit zero-padded index and the extension. -/
def fileName (i : Nat) : String :=
  "data." ++ padStart (Nat.repr i) 5 '0' ++ ".json"

/-- `String.prototype.startsWith`, written over the code-point lists so
that concrete instances reduce. -/
def strStartsWith (s pre : String) : Bool :=
  pre.data.isPrefixOf s.data

/-! ### Secondary indices (`FileManager.indices`)

`Map<field, Map<value, Set<id>>>`; sets are modelled as duplicate-free
insertion-ordered lists. -/

/-- One field's index: field value to the set of ids having it. -/
abbrev IndexMap (V : Type) : Type := List (V × List String)

/-- The `add` arm of `updateIndices` for one field: create the id-set if the
value is new, then add the id (JS `Set.add`: append if absent). -/
def idxAdd {V : Type} [DecidableEq V] (im : IndexMap V) (x : V) (id : String) :
    IndexMap V :=
  match mapGet im x with
  | none => mapSet im x [id]
  | some s => mapSet im x (if id ∈ s then s else s ++ [id])

/-- The `remove` arm of `updateIndices` for one field: delete the id from
the id-set and drop the map entry when the set becomes empty. -/
def idxRemove {V : Type} [DecidableEq V] (im : IndexMap V) (x : V)
    (id : String) : IndexMap V :=
  match mapGet im x with
  | none => im
  | some s =>
      let s' := s.erase id
      if s'.isEmpty then mapDel im x else mapSet im x s'

/-- The two operations of `updateIndices`. -/
inductive IdxOp where
  | add
  | remove

/-- `updateIndices(id, data, operation)`: for every indexed field, skip the
record when the field value is `undefined`, otherwise update that field's
index map. -/
def updateIndices {V : Type} [DecidableEq V]
    (indices : List (String × IndexMap V)) (id : String) (data : Value V)
    (op : IdxOp) : List (String × IndexMap V) :=
  indices.map (fun fi =>
    match mapGet data fi.1 with
    | none => fi
    | some x =>
        (fi.1, match op with
          | .add => idxAdd fi.2 x id
          | .remove => idxRemove fi.2 x id))

/-! ### The shard store (`class FileManager`)

Disk contents are modelled as the decoded shard files keyed by filename.
Disk writes can fail: an oracle `fsOk` indexed by a running tick decides
whether the `tick`-th `fs.promises.writeFile` call succeeds; a failed write
surfaces as `some ()` (the thrown error) and leaves the file unchanged,
exactly as the source's exception does. -/

/-- The mutable fields of `FileManager`, plus the modelled disk and the
write-failure oracle. -/
structure FMState (V : Type) where
  currentFileIndex : Nat
  currentEntryCount : Nat
  dataCache : LRUState (Shard V)
  disk : List (String × Shard V)
  indices : List (String × IndexMap V)
  writeQueue : List (String × DatabaseEntry V)
  fsOk : Nat → Bool
  tick : Nat

/-- A `FileManager` freshly constructed over an empty table directory
(`loadExistingFiles` finds no files): the cache is
`new LRUCache(CONFIG.CACHE.DEFAULT_SIZE, CONFIG.CACHE.DEFAULT_LIMIT_MB)`,
everything else is empty. -/
def fmInit (V : Type) (fsOk : Nat → Bool) : FMState V :=
  { currentFileIndex := 0
    currentEntryCount := 0
    dataCache := lruInit (Shard V) 1000 200
    disk := []
    indices := []
    writeQueue := []
    fsOk := fsOk
    tick := 0 }

/-- `performWrite(id, entry)`.  Reads the current shard from the cache
(`get` mutates recency and the hit counters) falling back to `{}`, advances
to a fresh shard when the current one is at capacity, maintains the indices
(removing the old value's entry only when the id is present in the current
shard), inserts the record, stores the shard back into the cache, and
rewrites the whole shard file; `currentEntryCount` is only updated after a
successful disk write, while the index, cache and cursor mutations precede
the write and survive its failure. -/
def performWrite {V : Type} [DecidableEq V] (sizeOf : Shard V → Nat)
    (st : FMState V) (id : String) (entry : DatabaseEntry V) (now : Nat) :
    FMState V × Option Unit :=
  let fname0 := fileName st.currentFileIndex
  let gr := lruGet st.dataCache fname0 now
  let currentData0 := gr.1.getD []
  let full := currentData0.length ≥ MAX_ENTRIES_PER_FILE
  let idx := if full then st.currentFileIndex + 1 else st.currentFileIndex
  let fname := if full then fileName (st.currentFileIndex + 1) else fname0
  let currentData := if full then [] else currentData0
  let indices1 :=
    match mapGet currentData id with
    | some old => updateIndices st.indices id old.value .remove
    | none => st.indices
  let indices2 := updateIndices indices1 id entry.value .add
  let newData := mapSet currentData id entry
  let cache2 := lruSet sizeOf gr.2 fname newData now
  if st.fsOk st.tick then
    ({ st with
        currentFileIndex := idx
        dataCache := cache2
        indices := indices2
        disk := mapSet st.disk fname newData
        currentEntryCount := newData.length
        tick := st.tick + 1 }, none)
  else
    ({ st with
        currentFileIndex := idx
        dataCache := cache2
        indices := indices2
        tick := st.tick + 1 }, some ())

/-- `readFromDisk(id)`: enumerate the files, skip names without the shard
prefix, return the match from the first shard containing the id after
storing that shard in the cache. -/
def readFromDisk {V : Type} [DecidableEq V] (sizeOf : Shard V → Nat)
    (st : FMState V) (id : String) (now : Nat) :
    Option (DatabaseEntry V) × FMState V :=
  match st.disk.find? (fun f => strStartsWith f.1 "data" && (mapGet f.2 id).isSome) with
  | some f => (mapGet f.2 id, { st with dataCache := lruSet sizeOf st.dataCache f.1 f.2 now })
  | none => (none, st)

/-- `read(id)`: scan the cached shard contents directly (no recency
update), falling back to the disk scan. -/
def fmRead {V : Type} [DecidableEq V] (sizeOf : Shard V → Nat)
    (st : FMState V) (id : String) (now : Nat) :
    Option (DatabaseEntry V) × FMState V :=
  match st.dataCache.cache.find? (fun p => (mapGet p.2.value id).isSome) with
  | some p => (mapGet p.2.value id, st)
  | none => readFromDisk sizeOf st id now

/-- `rebuildIndex(field)` body: scan every cached shard and add every
record whose field value is defined. -/
def rebuildIndexMap {V : Type} [DecidableEq V]
    (cache : List (String × CacheSlot (Shard V))) (f : String) : IndexMap V :=
  cache.foldl (fun acc fileslot =>
    fileslot.2.value.foldl (fun acc2 ide =>
      match mapGet ide.2.value f with
      | some x => idxAdd acc2 x ide.1
      | none => acc2) acc) []

/-- `createIndex(field)`: no-op when the field is already indexed,
otherwise install the map rebuilt from the cached shards. -/
def fmCreateIndex {V : Type} [DecidableEq V] (st : FMState V) (f : String) :
    FMState V :=
  if mapHas st.indices f then st
  else { st with indices := mapSet st.indices f (rebuildIndexMap st.dataCache.cache f) }

/-- `dropIndex(field)`. -/
def fmDropIndex {V : Type} [DecidableEq V] (st : FMState V) (f : String) :
    FMState V :=
  { st with indices := mapDel st.indices f }

/-- `getByIndex(field, value)`: resolve the id-set through the index map
(empty when the field is not indexed or the value unknown), then look every
id up through `read`.  In the source `this.read(id)` returns a `Promise`,
which is always truthy, so the `if (entry)` guard never filters anything:
the caller receives one resolved value — possibly `null` — per id, which is
why each element of the result is an `Option`. -/
def getByIndex {V : Type} [DecidableEq V] (sizeOf : Shard V → Nat)
    (st : FMState V) (f : String) (x : V) (now : Nat) :
    List (Option (DatabaseEntry V)) × FMState V :=
  match mapGet st.indices f with
  | none => ([], st)
  | some im =>
      match mapGet im x with
      | none => ([], st)
      | some ids =>
          ids.foldl (fun acc id =>
            let r := fmRead sizeOf acc.2 id now
            (acc.1 ++ [r.1], r.2)) ([], st)

/-! #### Startup load (`loadExistingFiles`)

The directory listing is a list of `(filename, contents)` pairs where the
contents are `none` when `fs.readFile` fails; JSON decoding is an abstract
`parse` returning `none` on undecodable text. -/

/-- `readFileData(filePath)`: read and decode, returning `{}` on any error
(the error is logged and swallowed). -/
def readFileData {V : Type} (parse : String → Option (Shard V))
    (raw : Option String) : Shard V :=
  (raw.bind parse).getD []

/-- `parseInt(file.split('.')[1] || '0')`: the decimal value of the leading
digits of the segment between the first two dots, `0` when the segment is
missing.  (`parseInt` of a fully non-numeric segment is `NaN`; shard names
generated by the store always carry a numeric segment, and that unreachable
path is modelled as `0`.) -/
def parseIndexFromName (name : String) : Nat :=
  match (name.data.splitOn '.').get? 1 with
  | none => 0
  | some seg =>
      let ds := seg.takeWhile (fun c => 48 ≤ c.toNat && c.toNat ≤ 57)
      if ds.isEmpty then 0
      else ds.foldl (fun acc c => acc * 10 + (c.toNat - 48)) 0

/-- `buildIndicesFromData(data)`: add every record of the shard to the
tracked indices (a decoded record's `value` is an object, hence truthy). -/
def buildIndicesFromData {V : Type} [DecidableEq V]
    (indices : List (String × IndexMap V)) (data : Shard V) :
    List (String × IndexMap V) :=
  data.foldl (fun acc ide => updateIndices acc ide.1 ide.2.value .add) indices

/-- The body of the `loadExistingFiles` loop for one (already decoded)
file: cache the shard, advance the shard cursor to the largest index seen,
overwrite the entry count with this shard's, and feed the indices. -/
def loadStep {V : Type} [DecidableEq V] (sizeOf : Shard V → Nat) (now : Nat)
    (st : FMState V) (file : String × Shard V) : FMState V :=
  { st with
    dataCache := lruSet sizeOf st.dataCache file.1 file.2 now
    currentFileIndex := max st.currentFileIndex (parseIndexFromName file.1)
    currentEntryCount := file.2.length
    indices := buildIndicesFromData st.indices file.2 }

/-- The `loadExistingFiles` loop over an already filtered and sorted
listing, decoding each file with `readFileData`. -/
def loadFold {V : Type} [DecidableEq V] (sizeOf : Shard V → Nat)
    (parse : String → Option (Shard V)) (now : Nat) (st : FMState V)
    (files : List (String × Option String)) : FMState V :=
  files.foldl (fun acc f => loadStep sizeOf now acc (f.1, readFileData parse f.2)) st

/-- `loadExistingFiles()`: keep the filenames with the shard prefix, sort
them (JS default string sort, i.e. code-point order), and run the load loop
from the freshly constructed state. -/
def loadExistingFiles {V : Type} [DecidableEq V] (sizeOf : Shard V → Nat)
    (parse : String → Option (Shard V)) (now : Nat) (fsOk : Nat → Bool)
    (files : List (String × Option String)) : FMState V :=
  loadFold sizeOf parse now (fmInit V fsOk)
    ((files.filter (fun f => strStartsWith f.1 "data")).insertionSort
      (fun a b => strLe a.1 b.1))

/-- `write(id, entry)` before any draining: push the pending operation. -/
def fmEnqueue {V : Type} (st : FMState V) (id : String)
    (entry : DatabaseEntry V) : FMState V :=
  { st with writeQueue := st.writeQueue ++ [(id, entry)] }

/-- Process the operations of one spliced batch.  Each queued closure runs
`performWrite` for its own item and settles its own promise with that
attempt's outcome; the batch items' synchronous prefixes run in queue
order. -/
def processBatch {V : Type} [DecidableEq V] (sizeOf : Shard V → Nat) :
    FMState V → List (String × DatabaseEntry V) → Nat →
    FMState V × List (Option Unit)
  | st, [], _ => (st, [])
  | st, i :: rest, now =>
      let r := performWrite sizeOf st i.1 i.2 now
      let rr := processBatch sizeOf r.1 rest now
      (rr.1, r.2 :: rr.2)

/-- The `processWriteQueue` drain loop: splice off up to `BATCH_SIZE`
pending items, process them, and keep going (`setImmediate` re-entry) until
the queue is empty.  Returns the final state and each item paired with the
outcome its completion was settled with. -/
def drainFM {V : Type} [DecidableEq V] (sizeOf : Shard V → Nat)
    (st : FMState V) (q : List (String × DatabaseEntry V)) (now : Nat) :
    FMState V × List ((String × DatabaseEntry V) × Option Unit) :=
  if h : q = [] then (st, [])
  else
    let batch := q.take BATCH_SIZE
    let rest := q.drop BATCH_SIZE
    let r := processBatch sizeOf st batch now
    let rr := drainFM sizeOf r.1 rest now
    (rr.1, batch.zip r.2 ++ rr.2)
termination_by q.length
decreasing_by
  simp only [List.length_drop]
  have : q.length ≠ 0 := fun h0 => h (List.eq_nil_of_length_eq_zero h0)
  simp only [BATCH_SIZE]
  omega

/-- The per-item sequential reference processing of the same queue: every
item is persisted by its own `performWrite` attempt, one after the other,
and its completion carries exactly that attempt's outcome. -/
def seqDrain {V : Type} [DecidableEq V] (sizeOf : Shard V → Nat) :
    FMState V → List (String × DatabaseEntry V) → Nat →
    FMState V × List ((String × DatabaseEntry V) × Option Unit)
  | st, [], _ => (st, [])
  | st, i :: rest, now =>
      let r := performWrite sizeOf st i.1 i.2 now
      let rr := seqDrain sizeOf r.1 rest now
      (rr.1, (i, r.2) :: rr.2)

/-- The shard contents produced by inserting a list of fresh records in
order. -/
def shardOf {V : Type} (l : List (DatabaseEntry V)) : Shard V :=
  l.map (fun e => (e.id, e))

/-- A sequence of direct shard-store writes: fold `performWrite` over the
records (the outcome of each disk write is dropped; the sequence used by
claim C2 runs with an always-succeeding disk). -/
def writeSeq {V : Type} [DecidableEq V] (sizeOf : Shard V → Nat)
    (st : FMState V) (es : List (DatabaseEntry V)) (now : Nat) : FMState V :=
  es.foldl (fun acc e => (performWrite sizeOf acc e.id e now).1) st

/-! ### The table facade (`class DataManager` and `initializeDatabase`) -/

/-- The mutable fields of `DataManager`: the wrapped `FileManager`, the
authoritative in-memory record map, and the pending save queue. -/
structure DMState (V : Type) where
  fm : FMState V
  cache : List (String × DatabaseEntry V)
  saveQueue : List (String × DatabaseEntry V)

/-- A freshly opened table (empty directory). -/
def dmInit (V : Type) (fsOk : Nat → Bool) : DMState V :=
  { fm := fmInit V fsOk, cache := [], saveQueue := [] }

/-- `DataManager.save(id, value)` up to its first suspension point: build
the entry with fresh timestamps and version 1, store it into the in-memory
map synchronously, and push the persistence closure onto the save queue.
The returned promise settles only later, when the queue drains. -/
def dmSave {V : Type} [DecidableEq V] (st : DMState V) (id : String)
    (v : Value V) (now : Nat) : DMState V :=
  let entry : DatabaseEntry V :=
    { id := id, value := v, created_at := now, updated_at := now, version := 1 }
  { st with
    cache := mapSet st.cache id entry
    saveQueue := st.saveQueue ++ [(id, entry)] }

/-- `DataManager.get(id)`: a synchronous in-memory lookup
(`this.cache.get(id) || null`). -/
def dmGet {V : Type} [DecidableEq V] (st : DMState V) (id : String) :
    Option (DatabaseEntry V) :=
  mapGet st.cache id

/-- `DataManager.getAll()`: `Array.from(this.cache.values())`. -/
def dmGetAll {V : Type} (st : DMState V) : List (DatabaseEntry V) :=
  st.cache.map (fun p => p.2)

/-- `DataManager.remove(id)`: delete from the in-memory map only. -/
def dmRemove {V : Type} [DecidableEq V] (st : DMState V) (id : String) :
    DMState V :=
  { st with cache := mapDel st.cache id }

/-- `DataManager.processSaveQueue`: shift and await every pending save in
order; each runs `fileManager.write`, whose queue drains the single item
through `performWrite`.  Errors are caught, logged and swallowed, so the
loop always empties the queue. -/
def dmDrain {V : Type} [DecidableEq V] (sizeOf : Shard V → Nat)
    (st : DMState V) (now : Nat) : DMState V :=
  { st with
    fm := (seqDrain sizeOf st.fm st.saveQueue now).1
    saveQueue := [] }

/-- The facade's `remove(id)`: record whether the id is present in memory,
delete it from the in-memory map, and return that flag.  Nothing is
enqueued and the `FileManager` is never touched. -/
def removeF {V : Type} [DecidableEq V] (st : DMState V) (id : String) :
    DMState V × Bool :=
  ((dmRemove st id), (dmGet st id).isSome)

/-- The direction values of `QueryOptions.order`. -/
inductive SortOrder where
  | asc
  | desc
deriving DecidableEq

/-- The fields of `QueryOptions` the facade's `getAll` reads. -/
structure QueryOptions where
  orderBy : Option String
  order : Option SortOrder

/-- `a.id.localeCompare(b.id)`-ascending stable sort (locale collation is
modelled as the standard order on strings). -/
def sortAscById {V : Type} (l : List (DatabaseEntry V)) :
    List (DatabaseEntry V) :=
  l.insertionSort (fun a b => strLe a.id b.id)

/-- `b.id.localeCompare(a.id)`-descending stable sort. -/
def sortDescById {V : Type} (l : List (DatabaseEntry V)) :
    List (DatabaseEntry V) :=
  l.insertionSort (fun a b => strLe b.id a.id)

/-- The facade's `getAll(options?)`: take the in-memory entries and sort
them by id only when an `orderBy` option is supplied, descending exactly
when `order` is `'desc'`. -/
def getAllF {V : Type} [DecidableEq V] (st : DMState V)
    (opts : Option QueryOptions) : List (DatabaseEntry V) :=
  let entries := dmGetAll st
  match opts with
  | some o =>
      if o.orderBy.isSome then
        if o.order = some .desc then sortDescById entries else sortAscById entries
      else entries
  | none => entries

/-- A default entry used only to give out-of-range JS index reads a value;
every index the model produces is in range. -/
def defaultEntry (V : Type) : DatabaseEntry V :=
  { id := "", value := [], created_at := 0, updated_at := 0, version := 0 }

/-- The facade's `random(count = 1)`: empty table gives `[]`; otherwise
loop `i` from `0` to `Math.min(count, entries.length)` exclusive, each turn
pushing the entry at an independently drawn random index.
`Math.floor(Math.random() * len)` is modelled by an oracle `rng` reduced
modulo the length. -/
def randomF {V : Type} [DecidableEq V] (st : DMState V) (count : Nat)
    (rng : Nat → Nat) : List (DatabaseEntry V) :=
  let entries := dmGetAll st
  if entries.length = 0 then []
  else
    (List.range (min count entries.length)).map
      (fun i => (entries.get? (rng i % entries.length)).getD (defaultEntry V))

/-! ### JS numbers for `aggregate`

The facade's `aggregate` first coerces each field value with `Number(...)`
and filters out `NaN`s.  JS doubles are idealized as rationals extended
with the three special values; the only arithmetic the verified claims
touch is on empty value lists, where no rounding occurs. -/

/-- An idealized JS number. -/
inductive JsNum where
  | fin (q : ℚ)
  | inf
  | negInf
  | nan
deriving DecidableEq

/-- `Number.isNaN`. -/
def JsNum.isNaN : JsNum → Bool
  | .nan => true
  | _ => false

/-- JS `+` on numbers. -/
def jsAdd : JsNum → JsNum → JsNum
  | .nan, _ => .nan
  | _, .nan => .nan
  | .fin a, .fin b => .fin (a + b)
  | .fin _, .inf => .inf
  | .inf, .fin _ => .inf
  | .fin _, .negInf => .negInf
  | .negInf, .fin _ => .negInf
  | .inf, .inf => .inf
  | .negInf, .negInf => .negInf
  | .inf, .negInf => .nan
  | .negInf, .inf => .nan

/-- JS `/` on numbers (only exercised with a positive finite divisor). -/
def jsDiv : JsNum → JsNum → JsNum
  | .nan, _ => .nan
  | _, .nan => .nan
  | .fin a, .fin b =>
      if b = 0 then (if a = 0 then .nan else if 0 < a then .inf else .negInf)
      else .fin (a / b)
  | .inf, .fin b => if b < 0 then .negInf else .inf
  | .negInf, .fin b => if b < 0 then .inf else .negInf
  | .fin _, .inf => .fin 0
  | .fin _, .negInf => .fin 0
  | .inf, .inf => .nan
  | .inf, .negInf => .nan
  | .negInf, .inf => .nan
  | .negInf, .negInf => .nan

/-- Binary `Math.min`. -/
def jsMin2 : JsNum → JsNum → JsNum
  | .nan, _ => .nan
  | _, .nan => .nan
  | .fin a, .fin b => .fin (min a b)
  | .negInf, _ => .negInf
  | _, .negInf => .negInf
  | .inf, x => x
  | x, .inf => x

/-- Binary `Math.max`. -/
def jsMax2 : JsNum → JsNum → JsNum
  | .nan, _ => .nan
  | _, .nan => .nan
  | .fin a, .fin b => .fin (max a b)
  | .inf, _ => .inf
  | _, .inf => .inf
  | .negInf, x => x
  | x, .negInf => x

/-- The operations of the facade's `aggregate`. -/
inductive AggOp where
  | sum
  | avg
  | min
  | max
  | count

/-- The coerced-and-filtered numeric values of a field:
`entries.map(e => Number(e.value[field])).filter(v => !isNaN(v))`, with the
coercion of a field value given by `toNum` and a missing field coercing to
`NaN`. -/
def numericValues {V : Type} [DecidableEq V] (toNum : V → JsNum)
    (st : DMState V) (field : String) : List JsNum :=
  ((dmGetAll st).map (fun e =>
    match mapGet e.value field with
    | some v => toNum v
    | none => JsNum.nan)).filter (fun v => ¬ v.isNaN = true)

/-- The facade's `aggregate(field, operation)`: `sum` folds `+` from `0`;
`avg` divides the sum by the count, defaulting to `0` on no values; `min`
and `max` are `Math.min(...values)` / `Math.max(...values)`, whose value on
an empty spread is `Infinity` / `-Infinity`; `count` is the length. -/
def aggregateF {V : Type} [DecidableEq V] (toNum : V → JsNum)
    (st : DMState V) (field : String) (op : AggOp) : JsNum :=
  let values := numericValues toNum st field
  match op with
  | .sum => values.foldl jsAdd (.fin 0)
  | .avg =>
      if 0 < values.length then
        jsDiv (values.foldl jsAdd (.fin 0)) (.fin values.length)
      else .fin 0
  | .min => values.foldl jsMin2 .inf
  | .max => values.foldl jsMax2 .negInf
  | .count => .fin values.length

/-! ### The legacy single-table implementation (`src/msdb.ts`) -/

/-- `interface DatabaseEntry<T>` of the legacy implementation: no
timestamps. -/
structure SimpleEntry (V : Type) where
  id : String
  value : Value V
deriving DecidableEq

/-- The two in-memory stores of a legacy table: `tableData` (everything
loaded or saved) and `cache` (entries saved since the last flush). -/
structure MsdbTable (V : Type) where
  tableData : List (String × SimpleEntry V)
  cache : List (String × SimpleEntry V)

/-- `CONFIG.CACHE_LIMIT` of the legacy implementation. -/
def CACHE_LIMIT : Nat := 1000

/-- A legacy table opened over an empty directory. -/
def msdbInit (V : Type) : MsdbTable V :=
  { tableData := [], cache := [] }

/-- `saveEntry(id, data)`: store the entry in both `tableData` and the
cache; once the cache reaches the limit, `saveTableData()` rewrites the part
files from `tableData` (the in-memory state is unchanged) and the cache is
cleared. -/
def msdbSave {V : Type} [DecidableEq V] (st : MsdbTable V) (id : String)
    (data : Value V) : MsdbTable V :=
  let entry : SimpleEntry V := { id := id, value := data }
  let st1 : MsdbTable V :=
    { tableData := mapSet st.tableData id entry
      cache := mapSet st.cache id entry }
  if st1.cache.length ≥ CACHE_LIMIT then { st1 with cache := [] } else st1

/-- `getAllEntries(orderBy = 'asc')`:
`[...cache.values(), ...Object.values(tableData)]` sorted by id with
`localeCompare`, ascending exactly when `orderBy === 'asc'`. -/
def msdbGetAllEntries {V : Type} [DecidableEq V] (st : MsdbTable V)
    (orderBy : SortOrder) : List (SimpleEntry V) :=
  let entries := (st.cache.map (fun p => p.2)) ++ (st.tableData.map (fun p => p.2))
  match orderBy with
  | .asc => entries.insertionSort (fun a b => strLe a.id b.id)
  | .desc => entries.insertionSort (fun a b => strLe b.id a.id)

/-! ### Concrete states used by witnesses and counterexamples -/

/-- A table state with one record persisted to the first shard. -/
def c7St : DMState Nat :=
  dmDrain (fun _ => 0) (dmSave (dmInit Nat (fun _ => true)) "a" [("x", 1)] 0) 0

/-- The record written into `c7St`. -/
def c7Entry : DatabaseEntry Nat :=
  { id := "a", value := [("x", 1)], created_at := 0, updated_at := 0, version := 1 }

/-- A table state with exactly one in-memory entry. -/
def c10St : DMState Nat := dmSave (dmInit Nat (fun _ => true)) "a" [] 0

/-- An empty table. -/
def c6St : DMState Nat := dmInit Nat (fun _ => true)

/-- The legacy table state reached by `save("b", ...)`, `save("a", ...)`,
`save("c", ...)` from an empty table: all three entries sit in both
`tableData` and the still-unflushed cache. -/
def c5St : MsdbTable Nat :=
  msdbSave (msdbSave (msdbSave (msdbInit Nat) "b" []) "a" []) "c" []

/-- The facade state reached by saving ids `"b"`, `"a"`, `"c"`. -/
def c5FSt : DMState Nat :=
  dmSave (dmSave (dmSave (dmInit Nat (fun _ => true)) "b" [] 0) "a" [] 0)
    "c" [] 0

/-- The JSON decoder of the C8 witness: it accepts exactly the text
`"ok"`. -/
def c8Parse : String → Option (Shard Nat) :=
  fun s => if s = "ok" then some [] else none

/-- Distinct ids for the C2 witness: the id of record `n` is `n`
repetitions of `a`. -/
def c2IdOf (n : Nat) : String := String.mk (List.replicate n 'a')

/-- `MAX_ENTRIES_PER_FILE + 1` records with distinct ids. -/
def c2Es : List (DatabaseEntry Unit) :=
  (List.range (MAX_ENTRIES_PER_FILE + 1)).map (fun n =>
    { id := c2IdOf n, value := [], created_at := 0, updated_at := 0, version := 1 })

/-- A concrete record for the C9 witness. -/
def c9E : DatabaseEntry Nat :=
  { id := "a", value := [("x", 1)], created_at := 0, updated_at := 0, version := 1 }

/-- A concrete one-item write queue for the C9 witness. -/
def c9Q : List (String × DatabaseEntry Nat) := [("a", c9E)]

/-- The C9 witness state: a fresh `FileManager` with a reliable disk. -/
def c9St : FMState Nat := fmInit Nat (fun _ => true)

/-- The shard contents a sequence of writes produces: fold the
`currentData[id] = entry` assignments, later writes to the same id
winning. -/
def shardFold {V : Type} [DecidableEq V] (m : Shard V)
    (es : List (DatabaseEntry V)) : Shard V :=
  es.foldl (fun acc e => mapSet acc e.id e) m

/-- The record stored under `id` has `value[f] == x`. -/
def matchesF {V : Type} [DecidableEq V] (f : String) (m : Shard V) (x : V)
    (id : String) : Prop :=
  ∃ e, mapGet m id = some e ∧ mapGet e.value f = some x

/-- One field's arm of `updateIndices`: skip when `data[field]` is
`undefined`, otherwise apply the operation to that field's map. -/
def idxApply {V : Type} [DecidableEq V] (im : IndexMap V) (id : String)
    (data : Value V) (f : String) (op : IdxOp) : IndexMap V :=
  match mapGet data f with
  | none => im
  | some x =>
      match op with
      | .add => idxAdd im x id
      | .remove => idxRemove im x id

/-- The index for field `f` exactly reflects the shard `m`: every id-set is
nonempty and duplicate-free and holds precisely the ids of records whose
`f` value is the key, and keys absent from the map match no record. -/
def ExactIdx {V : Type} [DecidableEq V] (f : String) (im : IndexMap V)
    (m : Shard V) : Prop :=
  (∀ x s, mapGet im x = some s →
    s ≠ [] ∧ s.Nodup ∧ ∀ id, id ∈ s ↔ matchesF f m x id) ∧
  (∀ x, mapGet im x = none → ∀ id, ¬ matchesF f m x id)

/-- The canonical single-shard state the C3 write sequence maintains:
cursor on shard 0, that shard alone in the cache and on disk, and a single
index on `f`. -/
def C3Shape {V : Type} [DecidableEq V] (fsOk : Nat → Bool)
    (sizeOf : Shard V → Nat) (f : String) (now : Nat) (st : FMState V)
    (m : Shard V) (im : IndexMap V) (hit miss tick : Nat) : Prop :=
  st.currentFileIndex = 0 ∧
  st.dataCache =
    { cache := [(fileName 0, { value := m, accessTime := now, size := sizeOf m })]
      accessOrder := [fileName 0]
      maxSize := 1000
      maxMemoryMB := 200
      currentMemoryBytes := (sizeOf m : Int)
      hitCount := hit
      missCount := miss } ∧
  st.disk = [(fileName 0, m)] ∧
  st.indices = [(f, im)] ∧
  st.fsOk = fsOk ∧ st.tick = tick ∧ st.writeQueue = []

/-- The C3 counterexample run: index `f`, save a record with `f = 1`, drain
it into the shard store, then remove it through the facade. -/
def c3sys : DMState Nat :=
  let s0 : DMState Nat := dmInit Nat (fun _ => true)
  let s1 : DMState Nat := { s0 with fm := fmCreateIndex s0.fm "f" }
  let s2 := dmDrain (fun _ => 0) (dmSave s1 "a" [("f", 1)] 0) 0
  (removeF s2 "a").1

/-- First C3 witness record, with `f = 1`. -/
def c3E1 : DatabaseEntry Nat :=
  { id := "a", value := [("f", 1)], created_at := 0, updated_at := 0, version := 1 }

/-- Second C3 witness record, also with `f = 1`. -/
def c3E2 : DatabaseEntry Nat :=
  { id := "b", value := [("f", 1)], created_at := 0, updated_at := 0, version := 1 }

/-- The C3 witness write sequence. -/
def c3Es : List (DatabaseEntry Nat) := [c3E1, c3E2]



/-! ## Theorems -/

/-! #### Association-list lemmas -/

theorem mapGet_nil {κ β : Type} [DecidableEq κ] (k : κ) : mapGet ([] : List (κ × β)) k = none := rfl

theorem mapGet_cons {κ β : Type} [DecidableEq κ] (q : κ × β) (t : List (κ × β))
    (k : κ) :
    mapGet (q :: t) k = if q.1 = k then some q.2 else mapGet t k := by
  by_cases hq : q.1 = k
  · rw [if_pos hq]
    unfold mapGet
    rw [List.find?_cons_of_pos _ (by simp [hq])]
    rfl
  · rw [if_neg hq]
    unfold mapGet
    rw [List.find?_cons_of_neg _ (by simp [hq])]

theorem mapDel_nil {κ β : Type} [DecidableEq κ] (k : κ) : mapDel ([] : List (κ × β)) k = [] := rfl

theorem mapDel_cons {κ β : Type} [DecidableEq κ] (q : κ × β) (t : List (κ × β))
    (k : κ) :
    mapDel (q :: t) k = if q.1 = k then mapDel t k else q :: mapDel t k := by
  by_cases hq : q.1 = k
  · simp [mapDel, List.filter_cons, hq]
  · simp [mapDel, List.filter_cons, hq]

theorem mapGet_isSome_iff {κ β : Type} [DecidableEq κ] (m : List (κ × β)) (k : κ) :
    (mapGet m k).isSome ↔ k ∈ m.map Prod.fst := by
  induction m with
  | nil => simp [mapGet_nil]
  | cons q t ih =>
    rw [mapGet_cons]
    by_cases hq : q.1 = k
    · simp [hq]
    · have hq' : ¬ k = q.1 := fun hh => hq hh.symm
      simp [hq, hq', ih]

theorem mapGet_eq_none_iff {κ β : Type} [DecidableEq κ] (m : List (κ × β)) (k : κ) :
    mapGet m k = none ↔ k ∉ m.map Prod.fst := by
  rw [← mapGet_isSome_iff, ← Option.not_isSome_iff_eq_none]

theorem mapHas_iff {κ β : Type} [DecidableEq κ] (m : List (κ × β)) (k : κ) :
    mapHas m k = true ↔ k ∈ m.map Prod.fst := by
  simp only [mapHas, List.any_eq_true, decide_eq_true_eq]
  constructor
  · rintro ⟨p, hp, hpk⟩
    exact hpk ▸ List.mem_map_of_mem Prod.fst hp
  · intro hk
    rcases List.mem_map.mp hk with ⟨p, hp, hpk⟩
    exact ⟨p, hp, hpk⟩

theorem mapSet_of_not_mem {κ β : Type} [DecidableEq κ] {m : List (κ × β)} {k : κ}
    (v : β) (hk : k ∉ m.map Prod.fst) : mapSet m k v = m ++ [(k, v)] := by
  unfold mapSet
  rw [if_neg ?_]
  intro hany
  rcases List.any_eq_true.mp hany with ⟨p, hp, hpk⟩
  simp only [decide_eq_true_eq] at hpk
  exact hk (hpk ▸ List.mem_map_of_mem Prod.fst hp)

theorem mapSet_of_mem {κ β : Type} [DecidableEq κ] {m : List (κ × β)} {k : κ} (v : β)
    (hk : k ∈ m.map Prod.fst) :
    mapSet m k v = m.map (fun p => if p.1 = k then (k, v) else p) := by
  unfold mapSet
  rw [if_pos ?_]
  rcases List.mem_map.mp hk with ⟨p, hp, hpk⟩
  exact List.any_eq_true.mpr ⟨p, hp, by simp [hpk]⟩

theorem keys_mapSet {κ β : Type} [DecidableEq κ] (m : List (κ × β)) (k : κ) (v : β) :
    (mapSet m k v).map Prod.fst =
      if k ∈ m.map Prod.fst then m.map Prod.fst else m.map Prod.fst ++ [k] := by
  by_cases hk : k ∈ m.map Prod.fst
  · rw [if_pos hk, mapSet_of_mem v hk, List.map_map]
    refine List.map_congr_left ?_
    intro p _
    by_cases hp : p.1 = k
    · simp [hp]
    · simp [hp]
  · rw [if_neg hk, mapSet_of_not_mem v hk]
    simp

theorem keys_mapSet_nodup {κ β : Type} [DecidableEq κ] {m : List (κ × β)} (k : κ)
    (v : β) (h : (m.map Prod.fst).Nodup) :
    ((mapSet m k v).map Prod.fst).Nodup := by
  rw [keys_mapSet]
  by_cases hk : k ∈ m.map Prod.fst
  · rwa [if_pos hk]
  · rw [if_neg hk]
    simp only [List.nodup_append, List.nodup_cons, List.not_mem_nil,
      not_false_iff, List.nodup_nil, and_true, true_and]
    constructor
    · exact h
    · intro a ha hmem
      simp only [List.mem_singleton] at hmem
      exact hk (hmem ▸ ha)

theorem mapGet_mapSet_self {κ β : Type} [DecidableEq κ] (m : List (κ × β)) (k : κ)
    (v : β) : mapGet (mapSet m k v) k = some v := by
  by_cases hk : k ∈ m.map Prod.fst
  · rw [mapSet_of_mem v hk]
    induction m with
    | nil => cases hk
    | cons q t ih =>
      rw [List.map_cons]
      by_cases hq : q.1 = k
      · rw [if_pos hq, mapGet_cons, if_pos rfl]
      · rw [if_neg hq, mapGet_cons, if_neg hq]
        have hk' : k ∈ t.map Prod.fst := by
          simp only [List.map_cons, List.mem_cons] at hk
          rcases hk with hh | ht
          · exact absurd hh.symm hq
          · exact ht
        exact ih hk'
  · rw [mapSet_of_not_mem v hk]
    have hnone : mapGet m k = none := (mapGet_eq_none_iff m k).mpr hk
    unfold mapGet at hnone ⊢
    rw [List.find?_append]
    rw [Option.map_eq_none'.mp hnone]
    rw [List.find?_cons_of_pos _ (by simp)]
    rfl

theorem mapGet_mapSet_ne {κ β : Type} [DecidableEq κ] (m : List (κ × β)) {k k' : κ}
    (v : β) (h : k' ≠ k) : mapGet (mapSet m k v) k' = mapGet m k' := by
  by_cases hk : k ∈ m.map Prod.fst
  · rw [mapSet_of_mem v hk]
    clear hk
    induction m with
    | nil => rfl
    | cons q t ih =>
      rw [List.map_cons, mapGet_cons, mapGet_cons]
      by_cases hq : q.1 = k
      · rw [if_pos hq]
        have h1 : ¬ ((k, v).1 = k') := fun hh => h hh.symm
        have h2 : ¬ (q.1 = k') := fun hh => h (hh ▸ hq)
        rw [if_neg h1, if_neg h2]
        exact ih
      · rw [if_neg hq]
        by_cases hq' : q.1 = k'
        · rw [if_pos hq', if_pos hq']
        · rw [if_neg hq', if_neg hq']
          exact ih
  · rw [mapSet_of_not_mem v hk]
    unfold mapGet
    rw [List.find?_append]
    have hlast : List.find? (fun p => decide (p.1 = k')) [(k, v)] = none := by
      rw [List.find?_cons_of_neg _ (by simpa using fun hh => h hh.symm)]
      rfl
    rw [hlast]
    cases List.find? (fun p => decide (p.1 = k')) m with
    | none => rfl
    | some p => rfl

theorem keys_mapDel {κ β : Type} [DecidableEq κ] (m : List (κ × β)) (k : κ) :
    (mapDel m k).map Prod.fst = (m.map Prod.fst).filter (fun x => ¬ x = k) := by
  induction m with
  | nil => rfl
  | cons q t ih =>
    rw [mapDel_cons]
    by_cases hq : q.1 = k
    · rw [if_pos hq, List.map_cons, List.filter_cons, if_neg (by simp [hq]), ih]
    · rw [if_neg hq, List.map_cons, List.map_cons, List.filter_cons,
        if_pos (by simp [hq]), ih]

theorem keys_mapDel_nodup {κ β : Type} [DecidableEq κ] {m : List (κ × β)} (k : κ)
    (h : (m.map Prod.fst).Nodup) : ((mapDel m k).map Prod.fst).Nodup := by
  rw [keys_mapDel]
  exact h.filter _

theorem mem_keys_mapDel {κ β : Type} [DecidableEq κ] (m : List (κ × β)) (k k' : κ) :
    k' ∈ (mapDel m k).map Prod.fst ↔ k' ≠ k ∧ k' ∈ m.map Prod.fst := by
  rw [keys_mapDel, List.mem_filter]
  simp [and_comm]

theorem sumSizes_cons {α : Type} (q : String × CacheSlot α)
    (t : List (String × CacheSlot α)) :
    sumSizes (q :: t) = (q.2.size : Int) + sumSizes t := by
  simp [sumSizes]

theorem sumSizes_mapDel {α : Type} {m : List (String × CacheSlot α)}
    {k : String} {slot : CacheSlot α} (hn : (m.map Prod.fst).Nodup)
    (hget : mapGet m k = some slot) :
    sumSizes m = (slot.size : Int) + sumSizes (mapDel m k) := by
  induction m with
  | nil => simp [mapGet_nil] at hget
  | cons q t ih =>
    simp only [List.map_cons, List.nodup_cons] at hn
    rw [mapGet_cons] at hget
    rw [mapDel_cons, sumSizes_cons]
    by_cases hq : q.1 = k
    · rw [if_pos hq] at hget ⊢
      have hslot : q.2 = slot := by
        injection hget
      have ht : mapDel t k = t := by
        unfold mapDel
        rw [List.filter_eq_self]
        intro p hp
        simp only [decide_eq_true_eq]
        intro hpk
        exact hn.1 (by rw [hq, ← hpk]; exact List.mem_map_of_mem Prod.fst hp)
      rw [ht, hslot]
    · rw [if_neg hq] at hget ⊢
      rw [sumSizes_cons, ih hn.2 hget]
      omega

theorem sumSizes_mapSet_none {α : Type} {m : List (String × CacheSlot α)}
    {k : String} (slot : CacheSlot α) (hget : mapGet m k = none) :
    sumSizes (mapSet m k slot) = sumSizes m + slot.size := by
  have hk : k ∉ m.map Prod.fst := (mapGet_eq_none_iff m k).mp hget
  rw [mapSet_of_not_mem slot hk]
  simp [sumSizes]

theorem sumSizes_mapSet_some {α : Type} {m : List (String × CacheSlot α)}
    {k : String} {old : CacheSlot α} (slot : CacheSlot α)
    (hn : (m.map Prod.fst).Nodup) (hget : mapGet m k = some old) :
    sumSizes (mapSet m k slot) = sumSizes m - old.size + slot.size := by
  have hmem : k ∈ m.map Prod.fst := by
    rw [← mapGet_isSome_iff, hget]
    rfl
  rw [mapSet_of_mem slot hmem]
  clear hmem
  induction m with
  | nil => simp [mapGet_nil] at hget
  | cons q t ih =>
    simp only [List.map_cons, List.nodup_cons] at hn
    rw [mapGet_cons] at hget
    rw [List.map_cons]
    by_cases hq : q.1 = k
    · rw [if_pos hq] at hget ⊢
      have hslot : q.2 = old := by
        injection hget
      have ht : t.map (fun p => if p.1 = k then (k, slot) else p) = t := by
        have hmapid : t.map (fun p => if p.1 = k then (k, slot) else p) =
            t.map id := by
          refine List.map_congr_left ?_
          intro p hp
          rw [if_neg ?_]
          · rfl
          · intro hpk
            exact hn.1 (by rw [hq, ← hpk]; exact List.mem_map_of_mem Prod.fst hp)
        rw [hmapid, List.map_id]
      rw [ht, sumSizes_cons, sumSizes_cons, hslot]
      have hred : ((k, slot).2) = slot := rfl
      rw [hred]
      omega
    · rw [if_neg hq] at hget ⊢
      rw [sumSizes_cons, sumSizes_cons, ih hn.2 hget]
      omega

/-! #### Preservation of well-formedness and the bounds -/

theorem LRUState.budget_nonneg {α : Type} (st : LRUState α) : 0 ≤ st.budget := by
  unfold LRUState.budget
  positivity

theorem lruEvictGo_spec {α : Type} (maxSize : Nat) (budget : Int)
    (hb : 0 ≤ budget) :
    ∀ (o : List String) (c : List (String × CacheSlot α)) (m : Int),
    (c.map Prod.fst).Nodup → o.Nodup → (∀ k, k ∈ o ↔ k ∈ c.map Prod.fst) →
    m = sumSizes c →
    ((((lruEvictGo maxSize budget o c m).2.1.map Prod.fst).Nodup ∧
      (lruEvictGo maxSize budget o c m).1.Nodup ∧
      (∀ k, k ∈ (lruEvictGo maxSize budget o c m).1 ↔
        k ∈ (lruEvictGo maxSize budget o c m).2.1.map Prod.fst) ∧
      (lruEvictGo maxSize budget o c m).2.2 =
        sumSizes (lruEvictGo maxSize budget o c m).2.1) ∧
     (lruEvictGo maxSize budget o c m).2.1.length ≤ maxSize ∧
     (lruEvictGo maxSize budget o c m).2.2 ≤ budget) := by
  intro o
  induction o with
  | nil =>
    intro c m hkn hon hok hm
    have hc : c = [] := by
      cases c with
      | nil => rfl
      | cons p t =>
        exact absurd ((hok p.1).mpr (List.mem_map_of_mem Prod.fst (List.mem_cons_self p t))) (List.not_mem_nil p.1)
    subst hc
    simp only [lruEvictGo]
    refine ⟨⟨hkn, hon, hok, hm⟩, by simp, ?_⟩
    simp only [hm, sumSizes, List.map_nil, List.sum_nil]
    exact hb
  | cons k rest ih =>
    intro c m hkn hon hok hm
    by_cases hcond : c.length ≥ maxSize ∨ m > budget
    · have hknr := hon
      rw [List.nodup_cons] at hknr
      cases hget : mapGet c k with
      | some slot =>
        have heq : lruEvictGo maxSize budget (k :: rest) c m =
            lruEvictGo maxSize budget rest (mapDel c k) (m - slot.size) := by
          simp only [lruEvictGo, if_pos hcond, hget]
        rw [heq]
        refine ih (mapDel c k) (m - slot.size) (keys_mapDel_nodup k hkn)
          hknr.2 ?_ ?_
        · intro k'
          rw [mem_keys_mapDel]
          constructor
          · intro hk'
            refine ⟨?_, (hok k').mp (List.mem_cons_of_mem k hk')⟩
            intro hkk
            exact hknr.1 (hkk ▸ hk')
          · rintro ⟨hne, hmem⟩
            rcases List.mem_cons.mp ((hok k').mpr hmem) with hh | ht
            · exact absurd hh hne
            · exact ht
        · have := sumSizes_mapDel hkn hget
          omega
      | none =>
        have heq : lruEvictGo maxSize budget (k :: rest) c m =
            lruEvictGo maxSize budget rest c m := by
          simp only [lruEvictGo, if_pos hcond, hget]
        rw [heq]
        refine ih c m hkn hknr.2 ?_ hm
        intro k'
        constructor
        · intro hk'
          exact (hok k').mp (List.mem_cons_of_mem k hk')
        · intro hmem
          rcases List.mem_cons.mp ((hok k').mpr hmem) with hh | ht
          · exfalso
            rw [mapGet_eq_none_iff] at hget
            exact hget (hh ▸ hmem)
          · exact ht
    · have heq : lruEvictGo maxSize budget (k :: rest) c m = (k :: rest, c, m) := by
        simp only [lruEvictGo, if_neg hcond]
      rw [heq]
      push_neg at hcond
      exact ⟨⟨hkn, hon, hok, hm⟩, le_of_lt hcond.1, hcond.2⟩

theorem lruEvict_spec {α : Type} {st : LRUState α} (h : LRUWf st) :
    LRUWf (lruEvict st) ∧ LRUBounded (lruEvict st) := by
  have hspec := lruEvictGo_spec st.maxSize st.budget st.budget_nonneg
    st.accessOrder st.cache st.currentMemoryBytes
    h.keysNodup h.orderNodup h.orderKeys h.memSum
  rcases hspec with ⟨⟨h1, h2, h3, h4⟩, h5, h6⟩
  exact ⟨⟨h1, h2, h3, h4⟩, h5, h6⟩

theorem lruTouch_wf {α : Type} {st : LRUState α} (h : LRUWf st) {k : String}
    (hk : k ∈ st.cache.map Prod.fst) : LRUWf (lruTouch st k) := by
  refine ⟨h.keysNodup, ?_, ?_, h.memSum⟩
  · show (st.accessOrder.erase k ++ [k]).Nodup
    rw [List.nodup_append]
    refine ⟨h.orderNodup.erase k, List.nodup_singleton k, ?_⟩
    intro a ha hmem
    rw [List.mem_singleton] at hmem
    subst hmem
    exact (List.Nodup.mem_erase_iff h.orderNodup).mp ha |>.1 rfl
  · intro k'
    show k' ∈ st.accessOrder.erase k ++ [k] ↔ k' ∈ st.cache.map Prod.fst
    rw [List.mem_append, List.mem_singleton]
    by_cases hkk : k' = k
    · subst hkk
      simp [hk]
    · simp only [hkk, or_false]
      rw [(List.Nodup.mem_erase_iff h.orderNodup)]
      simp only [hkk, ne_eq, not_false_iff, true_and]
      exact h.orderKeys k'

theorem lruSet_spec {α : Type} (sizeOf : α → Nat) {st : LRUState α}
    (h : LRUWf st) (k : String) (v : α) (now : Nat) :
    LRUWf (lruSet sizeOf st k v now) ∧ LRUBounded (lruSet sizeOf st k v now) := by
  unfold lruSet
  cases hget : mapGet st.cache k with
  | some old =>
    simp only [hget]
    have hmem : k ∈ st.cache.map Prod.fst := by
      rw [← mapGet_isSome_iff, hget]; rfl
    have hwf2 : LRUWf
        { st with
          cache := mapSet st.cache k
            { value := v, accessTime := now, size := sizeOf v }
          currentMemoryBytes := st.currentMemoryBytes - old.size + sizeOf v } := by
      refine ⟨keys_mapSet_nodup k _ h.keysNodup, h.orderNodup, ?_, ?_⟩
      · intro k'
        show k' ∈ st.accessOrder ↔ _
        rw [h.orderKeys k', keys_mapSet, if_pos hmem]
      · show st.currentMemoryBytes - old.size + sizeOf v = _
        rw [h.memSum]
        rw [sumSizes_mapSet_some _ h.keysNodup hget]
    have hkmem : k ∈ (mapSet st.cache k
        { value := v, accessTime := now, size := sizeOf v }).map Prod.fst := by
      rw [keys_mapSet, if_pos hmem]
      exact hmem
    exact lruEvict_spec (lruTouch_wf hwf2 hkmem)
  | none =>
    simp only [hget]
    have hnmem : k ∉ st.cache.map Prod.fst := (mapGet_eq_none_iff _ _).mp hget
    have hnord : k ∉ st.accessOrder := fun hk => hnmem ((h.orderKeys k).mp hk)
    have hwf3 : LRUWf (lruTouch
        { st with
          cache := mapSet st.cache k
            { value := v, accessTime := now, size := sizeOf v }
          currentMemoryBytes := st.currentMemoryBytes + sizeOf v } k) := by
      refine ⟨keys_mapSet_nodup k _ h.keysNodup, ?_, ?_, ?_⟩
      · show ((st.accessOrder.erase k) ++ [k]).Nodup
        rw [List.nodup_append]
        refine ⟨h.orderNodup.erase k, List.nodup_singleton k, ?_⟩
        intro a ha hmem
        rw [List.mem_singleton] at hmem
        subst hmem
        exact (List.Nodup.mem_erase_iff h.orderNodup).mp ha |>.1 rfl
      · intro k'
        show k' ∈ (st.accessOrder.erase k) ++ [k] ↔
          k' ∈ (mapSet st.cache k
            { value := v, accessTime := now, size := sizeOf v }).map Prod.fst
        rw [keys_mapSet, if_neg hnmem]
        by_cases hkk : k' = k
        · subst hkk
          simp
        · simp only [List.mem_append, List.mem_singleton, hkk, or_false]
          rw [(List.Nodup.mem_erase_iff h.orderNodup)]
          simp only [hkk, ne_eq, not_false_iff, true_and]
          exact h.orderKeys k'
      · show st.currentMemoryBytes + (sizeOf v : Int) = sumSizes (mapSet st.cache k
          { value := v, accessTime := now, size := sizeOf v })
        rw [sumSizes_mapSet_none _ hget, h.memSum]
    exact lruEvict_spec hwf3

theorem length_mapSet_of_mem {κ β : Type} [DecidableEq κ] {m : List (κ × β)} {k : κ}
    (v : β) (hk : k ∈ m.map Prod.fst) : (mapSet m k v).length = m.length := by
  rw [mapSet_of_mem v hk, List.length_map]

theorem lruGet_spec {α : Type} {st : LRUState α} (h : LRUWf st)
    (hbd : LRUBounded st) (k : String) (now : Nat) :
    LRUWf (lruGet st k now).2 ∧ LRUBounded (lruGet st k now).2 := by
  unfold lruGet
  cases hget : mapGet st.cache k with
  | some slot =>
    simp only [hget]
    have hmem : k ∈ st.cache.map Prod.fst := by
      rw [← mapGet_isSome_iff, hget]; rfl
    have hwf2 : LRUWf
        { st with
          cache := mapSet st.cache k ({ slot with accessTime := now })
          hitCount := st.hitCount + 1 } := by
      refine ⟨keys_mapSet_nodup k _ h.keysNodup, h.orderNodup, ?_, ?_⟩
      · intro k'
        show k' ∈ st.accessOrder ↔ _
        rw [h.orderKeys k', keys_mapSet, if_pos hmem]
      · show st.currentMemoryBytes = sumSizes (mapSet st.cache k _)
        rw [sumSizes_mapSet_some _ h.keysNodup hget, h.memSum]
        have hred : ({ slot with accessTime := now } : CacheSlot _).size = slot.size := rfl
        rw [hred]
        omega
    have hkmem : k ∈ (mapSet st.cache k
        ({ slot with accessTime := now })).map Prod.fst := by
      rw [keys_mapSet, if_pos hmem]
      exact hmem
    refine ⟨lruTouch_wf hwf2 hkmem, ?_, ?_⟩
    · show (mapSet st.cache k _).length ≤ st.maxSize
      rw [length_mapSet_of_mem _ hmem]
      exact hbd.1
    · exact hbd.2
  | none =>
    simp only [hget]
    exact ⟨⟨h.keysNodup, h.orderNodup, h.orderKeys, h.memSum⟩, hbd.1, hbd.2⟩

theorem lruDelete_spec {α : Type} {st : LRUState α} (h : LRUWf st)
    (hbd : LRUBounded st) (k : String) :
    LRUWf (lruDelete st k).1 ∧ LRUBounded (lruDelete st k).1 := by
  unfold lruDelete
  cases hget : mapGet st.cache k with
  | some slot =>
    simp only [hget]
    refine ⟨⟨keys_mapDel_nodup k h.keysNodup, h.orderNodup.erase k, ?_, ?_⟩, ?_, ?_⟩
    · intro k'
      show k' ∈ st.accessOrder.erase k ↔ _
      rw [List.Nodup.mem_erase_iff h.orderNodup, mem_keys_mapDel, h.orderKeys k']
    · show st.currentMemoryBytes - (slot.size : Int) = sumSizes (mapDel st.cache k)
      have := sumSizes_mapDel h.keysNodup hget
      rw [h.memSum]
      omega
    · show (mapDel st.cache k).length ≤ st.maxSize
      exact le_trans (List.length_filter_le _ _) hbd.1
    · show st.currentMemoryBytes - (slot.size : Int) ≤ st.budget
      have hnn : (0 : Int) ≤ (slot.size : Int) := Int.natCast_nonneg _
      have := hbd.2
      omega
  | none =>
    simp only [hget]
    exact ⟨h, hbd⟩

theorem lruClear_spec {α : Type} (st : LRUState α) :
    LRUWf (lruClear st) ∧ LRUBounded (lruClear st) := by
  refine ⟨⟨List.nodup_nil, List.nodup_nil, by simp [lruClear], rfl⟩, ?_, ?_⟩
  · exact Nat.zero_le _
  · exact (lruClear st).budget_nonneg

theorem foldl_preserves {σ τ : Type} (f : σ → τ → σ) (P : σ → Prop)
    (h : ∀ s t, P s → P (f s t)) :
    ∀ (l : List τ) (s : σ), P s → P (List.foldl f s l) := by
  intro l
  induction l with
  | nil => intro s hs; exact hs
  | cons t rest ih =>
    intro s hs
    exact ih (f s t) (h s t hs)

theorem lruCleanup_spec {α : Type} {st : LRUState α} (h : LRUWf st)
    (hbd : LRUBounded st) (now : Nat) :
    LRUWf (lruCleanup st now) ∧ LRUBounded (lruCleanup st now) := by
  unfold lruCleanup
  refine foldl_preserves _ (fun s => LRUWf s ∧ LRUBounded s) ?_ _ st ⟨h, hbd⟩
  intro s p hp
  exact lruDelete_spec hp.1 hp.2 p.1

theorem applyCacheOp_spec {α : Type} (sizeOf : α → Nat) {st : LRUState α}
    (h : LRUWf st) (hbd : LRUBounded st) (op : CacheOp α) :
    LRUWf (applyCacheOp sizeOf st op) ∧ LRUBounded (applyCacheOp sizeOf st op) := by
  cases op with
  | set k v now => exact lruSet_spec sizeOf h k v now
  | get k now => exact lruGet_spec h hbd k now
  | del k => exact lruDelete_spec h hbd k
  | clear => exact lruClear_spec st
  | cleanup now => exact lruCleanup_spec h hbd now

theorem lruInit_spec (α : Type) (maxSize maxMemoryMB : Nat) :
    LRUWf (lruInit α maxSize maxMemoryMB) ∧
    LRUBounded (lruInit α maxSize maxMemoryMB) := by
  refine ⟨⟨List.nodup_nil, List.nodup_nil, by simp [lruInit], rfl⟩, ?_, ?_⟩
  · exact Nat.zero_le _
  · exact (lruInit α maxSize maxMemoryMB).budget_nonneg

/-- C4: after any sequence of cache operations (`set`, `get`, `delete`,
`clear` and the periodic sweep) starting from a freshly constructed cache,
the tracked entry count never exceeds the configured maximum entry count and
the tracked running byte total never exceeds the configured memory budget of
`maxMemoryMB * 1024 * 1024` bytes: every `set` runs `evictLRU`, which drops
least-recently-used entries while either bound is exceeded. -/
theorem c4_cache_bounds_invariant (α : Type) (sizeOf : α → Nat)
    (maxSize maxMemoryMB : Nat) (ops : List (CacheOp α)) :
    LRUBounded (applyCacheOps sizeOf (lruInit α maxSize maxMemoryMB) ops) := by
  have main : LRUWf (applyCacheOps sizeOf (lruInit α maxSize maxMemoryMB) ops) ∧
      LRUBounded (applyCacheOps sizeOf (lruInit α maxSize maxMemoryMB) ops) := by
    unfold applyCacheOps
    refine foldl_preserves _ (fun s => LRUWf s ∧ LRUBounded s) ?_ _ _
      (lruInit_spec α maxSize maxMemoryMB)
    intro s op hp
    exact applyCacheOp_spec sizeOf hp.1 hp.2 op
  exact main.2

/-! ### String-order lemmas -/

theorem charListLeb_total : ∀ a b, charListLeb a b = true ∨ charListLeb b a = true := by
  intro a
  induction a with
  | nil => intro b; left; rfl
  | cons x as ih =>
    intro b
    cases b with
    | nil => right; rfl
    | cons y bs =>
      by_cases hxy : x.toNat < y.toNat
      · left
        simp [charListLeb, hxy]
      · by_cases hyx : y.toNat < x.toNat
        · right
          simp [charListLeb, hyx]
        · rcases ih bs with h | h
          · left
            simp [charListLeb, hxy, hyx, h]
          · right
            simp [charListLeb, hxy, hyx, h]

theorem charListLeb_trans : ∀ a b c, charListLeb a b = true →
    charListLeb b c = true → charListLeb a c = true := by
  intro a
  induction a with
  | nil => intro b c _ _; rfl
  | cons x as ih =>
    intro b c hab hbc
    cases b with
    | nil => exact absurd hab (by simp [charListLeb])
    | cons y bs =>
      cases c with
      | nil => exact absurd hbc (by simp [charListLeb])
      | cons z cs =>
        simp only [charListLeb] at hab hbc ⊢
        by_cases hxy : x.toNat < y.toNat
        · by_cases hyz : y.toNat < z.toNat
          · rw [if_pos (by omega)]
          · by_cases hzy : z.toNat < y.toNat
            · rw [if_neg hyz, if_pos hzy] at hbc
              exact absurd hbc (by simp)
            · rw [if_pos (by omega)]
        · by_cases hyx : y.toNat < x.toNat
          · rw [if_neg hxy, if_pos hyx] at hab
            exact absurd hab (by simp)
          · rw [if_neg hxy, if_neg hyx] at hab
            by_cases hyz : y.toNat < z.toNat
            · rw [if_pos (by omega)]
            · by_cases hzy : z.toNat < y.toNat
              · rw [if_neg hyz, if_pos hzy] at hbc
                exact absurd hbc (by simp)
              · rw [if_neg hyz, if_neg hzy] at hbc
                rw [if_neg (by omega), if_neg (by omega)]
                exact ih bs cs hab hbc

theorem charListLeb_antisymm : ∀ a b, charListLeb a b = true →
    charListLeb b a = true → a = b := by
  intro a
  induction a with
  | nil =>
    intro b _ hba
    cases b with
    | nil => rfl
    | cons y bs => exact absurd hba (by simp [charListLeb])
  | cons x as ih =>
    intro b hab hba
    cases b with
    | nil => exact absurd hab (by simp [charListLeb])
    | cons y bs =>
      simp only [charListLeb] at hab hba
      by_cases hxy : x.toNat < y.toNat
      · rw [if_neg (by omega), if_pos hxy] at hba
        exact absurd hba (by simp)
      · by_cases hyx : y.toNat < x.toNat
        · rw [if_pos hyx, if_neg hxy] at hab
          exact absurd hab (by simp)
        · rw [if_neg hxy, if_neg hyx] at hab
          rw [if_neg hyx, if_neg hxy] at hba
          have hchar : x = y :=
            Char.ext (UInt32.ext (show x.toNat = y.toNat by omega))
          rw [hchar, ih bs hab hba]

theorem strLe_total (a b : String) : strLe a b ∨ strLe b a :=
  charListLeb_total a.data b.data

theorem strLe_trans {a b c : String} (hab : strLe a b) (hbc : strLe b c) :
    strLe a c :=
  charListLeb_trans a.data b.data c.data hab hbc

theorem strLe_antisymm {a b : String} (hab : strLe a b) (hba : strLe b a) :
    a = b :=
  String.ext (charListLeb_antisymm a.data b.data hab hba)

/-! ## The claims -/

/-! ### C1: read-after-write through the facade -/

/-- C1: for every table state, id and value, `save(id, v)` followed
immediately by `find(id)` — before any persistence of that write happens —
returns the entry with value `v`: `DataManager.save` stores the
freshly-built entry (timestamps `now`, version 1) into the in-memory map
synchronously, and only then pushes the durability write onto the save
queue, so `find` (a pure in-memory lookup) already sees it while the
`FileManager`, its disk included, is still completely untouched and the
write still sits queued. -/
theorem c1_read_after_write {V : Type} [DecidableEq V] (st : DMState V)
    (id : String) (v : Value V) (now : Nat) :
    dmGet (dmSave st id v now) id =
      some { id := id, value := v, created_at := now, updated_at := now,
             version := 1 } ∧
    (dmSave st id v now).fm = st.fm ∧
    (dmSave st id v now).saveQueue = st.saveQueue ++
      [(id, { id := id, value := v, created_at := now, updated_at := now,
              version := 1 })] := by
  refine ⟨?_, rfl, rfl⟩
  show mapGet (mapSet st.cache id _) id = _
  exact mapGet_mapSet_self st.cache id _

/-! ### C7: `remove` touches only the in-memory map -/

/-- C7: the facade's `remove(id)` deletes the entry from the in-memory map
only and enqueues nothing: the whole `FileManager` state — disk files,
cache, indices and write queue — is unchanged, the save queue is unchanged,
the return value is `true` exactly when the id was present in memory, and
every shard persisted before the removal is still on disk afterwards. -/
theorem c7_remove_memory_only {V : Type} [DecidableEq V] (st : DMState V)
    (id : String) :
    (removeF st id).1.fm = st.fm ∧
    (removeF st id).1.saveQueue = st.saveQueue ∧
    (removeF st id).1.cache = mapDel st.cache id ∧
    ((removeF st id).2 = true ↔ (dmGet st id).isSome = true) ∧
    (∀ fname shard, mapGet st.fm.disk fname = some shard →
      mapGet ((removeF st id).1.fm.disk) fname = some shard) :=
  ⟨rfl, rfl, rfl, Iff.rfl, fun _ _ h => h⟩

/-- Witness for C7 at a concrete state: the record persisted to shard 0 is
still on disk after `remove("a")`, and the call returned `true`. -/
theorem c7_remove_memory_only_witness :
    mapGet ((removeF c7St "a").1.fm.disk) (fileName 0) = some [("a", c7Entry)] ∧
    (removeF c7St "a").2 = true :=
  ⟨(c7_remove_memory_only c7St "a").2.2.2.2 (fileName 0) [("a", c7Entry)]
    (by decide), by decide⟩

/-! ### C10: `random(n)` is capped at the entry count -/

/-- C10 counterexample: on a table with exactly one entry, `random(2)`
returns one record, not two — the loop runs `Math.min(count,
entries.length)` times, so the claim that `random(n)` returns a list of
exactly `n` records (with replacement allowing `n` to exceed the number of
distinct entries) is false as stated. -/
theorem c10_counterexample :
    (randomF c10St 2 (fun _ => 0)).length = 1 ∧
    ¬ (randomF c10St 2 (fun _ => 0)).length = 2 := by
  decide

/-- C10 (amended): `random(n)` returns exactly `min(n, entryCount)`
records, each drawn — with replacement, the draws being independent — from
the table's entries; on an empty table it returns the empty list. -/
theorem c10_random_sample {V : Type} [DecidableEq V] (st : DMState V)
    (count : Nat) (rng : Nat → Nat) :
    (randomF st count rng).length = min count (dmGetAll st).length ∧
    (∀ e, e ∈ randomF st count rng → e ∈ dmGetAll st) ∧
    (dmGetAll st = [] → randomF st count rng = []) := by
  unfold randomF
  by_cases h0 : (dmGetAll st).length = 0
  · have hnil : dmGetAll st = [] := List.eq_nil_of_length_eq_zero h0
    rw [if_pos h0]
    refine ⟨by rw [h0]; simp, ?_, fun _ => rfl⟩
    intro e he
    exact absurd he (List.not_mem_nil e)
  · rw [if_neg h0]
    refine ⟨?_, ?_, ?_⟩
    · rw [List.length_map, List.length_range]
    · intro e he
      rw [List.mem_map] at he
      rcases he with ⟨i, _, hei⟩
      have hlt : rng i % (dmGetAll st).length < (dmGetAll st).length :=
        Nat.mod_lt _ (Nat.pos_of_ne_zero h0)
      rw [← hei, List.get?_eq_get hlt]
      show (dmGetAll st).get _ ∈ dmGetAll st
      exact List.get_mem _ _ _
    · intro hemp
      exact absurd (by rw [hemp]; rfl) h0

/-- Witness for C10 at concrete inputs: the sampled record of a one-entry
table is an entry of the table, and `random(5)` on an empty table is
empty. -/
theorem c10_random_sample_witness :
    ({ id := "a", value := [], created_at := 0, updated_at := 0,
       version := 1 } : DatabaseEntry Nat) ∈ dmGetAll c10St ∧
    randomF (dmInit Nat (fun _ => true)) 5 (fun _ => 0) = [] :=
  ⟨(c10_random_sample c10St 2 (fun _ => 0)).2.1 _ (by decide),
   (c10_random_sample (dmInit Nat (fun _ => true)) 5 (fun _ => 0)).2.2 rfl⟩

/-! ### C6: aggregate over zero numeric records -/

/-- C6 counterexample: with zero matching numeric records,
`aggregate("age", "min")` evaluates to the numeric sentinel `Infinity`
(`Math.min()` of an empty spread) and `aggregate("age", "max")` to
`-Infinity` — `aggregate` always returns a number, never any explicit
"undefined" result, so the claim's min/max clause is false as stated. -/
theorem c6_counterexample :
    aggregateF (fun n : Nat => JsNum.fin n) c6St "age" .min = JsNum.inf ∧
    aggregateF (fun n : Nat => JsNum.fin n) c6St "age" .max = JsNum.negInf := by
  decide

/-- C6 (amended): over zero matching numeric records `sum` returns `0`,
`avg` returns `0` (a defined value, not `NaN`), `count` returns `0`, while
`min` returns the numeric sentinel `Infinity` and `max` returns
`-Infinity`; non-numeric (NaN-coercing) field values are always skipped
before the operation is computed. -/
theorem c6_aggregate_empty {V : Type} [DecidableEq V] (toNum : V → JsNum)
    (st : DMState V) (field : String)
    (h : numericValues toNum st field = []) :
    aggregateF toNum st field .sum = .fin 0 ∧
    aggregateF toNum st field .avg = .fin 0 ∧
    aggregateF toNum st field .min = .inf ∧
    aggregateF toNum st field .max = .negInf ∧
    aggregateF toNum st field .count = .fin 0 ∧
    (∀ (st' : DMState V) (f' : String) (v : JsNum),
      v ∈ numericValues toNum st' f' → ¬ v.isNaN = true) := by
  refine ⟨?_, ?_, ?_, ?_, ?_, ?_⟩
  · simp [aggregateF, h]
  · simp [aggregateF, h]
  · simp [aggregateF, h]
  · simp [aggregateF, h]
  · simp [aggregateF, h]
  · intro st' f' v hv
    have := (List.mem_filter.mp hv).2
    simpa using this

/-- Witness for C6 at a concrete empty table. -/
theorem c6_aggregate_empty_witness :
    aggregateF (fun n : Nat => JsNum.fin n) c6St "age" .sum = .fin 0 ∧
    aggregateF (fun n : Nat => JsNum.fin n) c6St "age" .avg = .fin 0 := by
  have h := c6_aggregate_empty (fun n : Nat => JsNum.fin n) c6St "age" rfl
  exact ⟨h.1, h.2.1⟩

/-! ### C5: `getAll` ordering -/

/-- C5 counterexample: on a legacy table holding exactly the ids
`{"b","a","c"}` (all three saved since the last cache flush),
`getAll("asc")` returns six entries — `["a","a","b","b","c","c"]` by id —
because `getAllEntries` concatenates the cache's values with `tableData`'s
values before sorting, so each stored entry appears twice, refuting the
claim that every stored entry appears exactly once and that the result is
`["a","b","c"]`. -/
theorem c5_counterexample :
    (msdbGetAllEntries c5St .asc).map (fun e => e.id) =
      ["a", "a", "b", "b", "c", "c"] ∧
    ¬ (msdbGetAllEntries c5St .asc).map (fun e => e.id) = ["a", "b", "c"] := by
  decide

/-- C5 (amended): in the main facade, `getAll` sorts only when an `orderBy`
option is supplied; with one, ascending order returns exactly the in-memory
entries (each exactly once) sorted by id ascending, and descending order
returns the exact reverse.  In the legacy `msdb.ts` implementation the sort
directions are the same but every entry still in the unflushed cache
appears twice (once from the cache, once from `tableData`). -/
theorem c5_getAll_ordering {V : Type} [DecidableEq V] (st : DMState V)
    (f : String)
    (hnd : ((dmGetAll st).map (fun e => e.id)).Nodup) :
    (getAllF st (some { orderBy := some f, order := some .asc })).Perm
      (dmGetAll st) ∧
    List.Sorted (fun a b : DatabaseEntry V => strLe a.id b.id)
      (getAllF st (some { orderBy := some f, order := some .asc })) ∧
    getAllF st (some { orderBy := some f, order := some .desc }) =
      (getAllF st (some { orderBy := some f, order := some .asc })).reverse := by
  have hasc : getAllF st (some { orderBy := some f, order := some .asc }) =
      sortAscById (dmGetAll st) := rfl
  have hdesc : getAllF st (some { orderBy := some f, order := some .desc }) =
      sortDescById (dmGetAll st) := rfl
  rw [hasc, hdesc]
  unfold sortAscById sortDescById
  haveI instTA : IsTotal (DatabaseEntry V) (fun a b => strLe a.id b.id) :=
    ⟨fun a b => strLe_total a.id b.id⟩
  haveI instTrA : IsTrans (DatabaseEntry V) (fun a b => strLe a.id b.id) :=
    ⟨fun _ _ _ hab hbc => strLe_trans hab hbc⟩
  haveI instTD : IsTotal (DatabaseEntry V) (fun a b => strLe b.id a.id) :=
    ⟨fun a b => (strLe_total a.id b.id).symm⟩
  haveI instTrD : IsTrans (DatabaseEntry V) (fun a b => strLe b.id a.id) :=
    ⟨fun _ _ _ hab hbc => strLe_trans hbc hab⟩
  have hpA := List.perm_insertionSort
    (fun a b : DatabaseEntry V => strLe a.id b.id) (dmGetAll st)
  have hpD := List.perm_insertionSort
    (fun a b : DatabaseEntry V => strLe b.id a.id) (dmGetAll st)
  have hsA := List.sorted_insertionSort
    (fun a b : DatabaseEntry V => strLe a.id b.id) (dmGetAll st)
  have hsD := List.sorted_insertionSort
    (fun a b : DatabaseEntry V => strLe b.id a.id) (dmGetAll st)
  refine ⟨hpA, hsA, ?_⟩
  have hperm : (List.insertionSort
      (fun a b : DatabaseEntry V => strLe b.id a.id) (dmGetAll st)).Perm
      ((List.insertionSort
        (fun a b : DatabaseEntry V => strLe a.id b.id) (dmGetAll st)).reverse) :=
    hpD.trans (hpA.symm.trans (List.reverse_perm _).symm)
  have hndA : ((List.insertionSort
      (fun a b : DatabaseEntry V => strLe a.id b.id) (dmGetAll st)).map
        (fun e => e.id)).Nodup :=
    ((hpA.map (fun e => e.id)).nodup_iff).mpr hnd
  have hndD : ((List.insertionSort
      (fun a b : DatabaseEntry V => strLe b.id a.id) (dmGetAll st)).map
        (fun e => e.id)).Nodup :=
    ((hpD.map (fun e => e.id)).nodup_iff).mpr hnd
  have hneA := List.pairwise_map.mp hndA
  have hneD := List.pairwise_map.mp hndD
  haveI : IsAntisymm (DatabaseEntry V)
      (fun a b => strLe b.id a.id ∧ ¬ b.id = a.id) :=
    ⟨fun _ _ h1 h2 => absurd (strLe_antisymm h2.1 h1.1) h2.2⟩
  refine List.eq_of_perm_of_sorted
    (r := fun a b : DatabaseEntry V => strLe b.id a.id ∧ ¬ b.id = a.id)
    hperm ?_ ?_
  · exact (hsD.and hneD).imp (fun h => ⟨h.1, fun he => h.2 he.symm⟩)
  · refine List.pairwise_reverse.mpr ?_
    exact (hsA.and hneA).imp (fun h => ⟨h.1, h.2⟩)

/-- Witness for C5 at the concrete facade table `{"b","a","c"}`; the
ascending result is `["a","b","c"]` by id. -/
theorem c5_getAll_ordering_witness :
    ((getAllF c5FSt (some { orderBy := some "id", order := some .asc })).Perm
      (dmGetAll c5FSt) ∧
     List.Sorted (fun a b : DatabaseEntry Nat => strLe a.id b.id)
      (getAllF c5FSt (some { orderBy := some "id", order := some .asc })) ∧
     getAllF c5FSt (some { orderBy := some "id", order := some .desc }) =
       (getAllF c5FSt (some { orderBy := some "id", order := some .asc })).reverse) ∧
    (getAllF c5FSt (some { orderBy := some "id", order := some .asc })).map
      (fun e => e.id) = ["a", "b", "c"] :=
  ⟨c5_getAll_ordering c5FSt "id" (by decide), by decide⟩

/-! ### C8: corrupt shard files never break the load -/

/-- C8: a shard file whose contents cannot be read (`raw = none`) or cannot
be decoded (`parse` fails) is treated as an empty shard — `readFileData`
returns `{}` after logging — and the load loop simply continues with the
remaining files from the state in which the corrupt file contributed the
empty shard; the load as a whole is a total function and never fails
because of a corrupt file, wherever it sits in the listing. -/
theorem c8_corrupt_shard_load {V : Type} [DecidableEq V]
    (sizeOf : Shard V → Nat) (parse : String → Option (Shard V)) (now : Nat)
    (st : FMState V) (pre post : List (String × Option String))
    (name : String) (raw : Option String)
    (hcorrupt : raw.bind parse = none) :
    readFileData parse raw = [] ∧
    loadFold sizeOf parse now st (pre ++ (name, raw) :: post) =
      loadFold sizeOf parse now
        (loadStep sizeOf now (loadFold sizeOf parse now st pre) (name, []))
        post := by
  have hread : readFileData parse raw = [] := by
    unfold readFileData
    rw [hcorrupt]
    rfl
  refine ⟨hread, ?_⟩
  unfold loadFold
  rw [List.foldl_append, List.foldl_cons, hread]

/-- Witness for C8 at a concrete listing: the undecodable second file is
read as the empty shard and the load continues past it. -/
theorem c8_corrupt_shard_load_witness :
    (some "bad").bind c8Parse = none ∧
    (readFileData c8Parse (some "bad") = [] ∧
     loadFold (fun _ => 0) c8Parse 0 (fmInit Nat (fun _ => true))
        ([("data.00000.json", some "ok")] ++
          ("data.00001.json", some "bad") :: [("data.00002.json", some "ok")]) =
       loadFold (fun _ => 0) c8Parse 0
         (loadStep (fun _ => 0) 0
           (loadFold (fun _ => 0) c8Parse 0 (fmInit Nat (fun _ => true))
             [("data.00000.json", some "ok")])
           ("data.00001.json", []))
         [("data.00002.json", some "ok")]) :=
  ⟨by decide,
   c8_corrupt_shard_load (fun _ => 0) c8Parse 0 (fmInit Nat (fun _ => true))
     [("data.00000.json", some "ok")] [("data.00002.json", some "ok")]
     "data.00001.json" (some "bad") (by decide)⟩

/-! ### C2: shard rollover -/

theorem mapGet_singleton_self {κ β : Type} [DecidableEq κ] (k : κ) (v : β) :
    mapGet [(k, v)] k = some v := by
  rw [mapGet_cons, if_pos rfl]

theorem mapSet_nil {κ β : Type} [DecidableEq κ] (k : κ) (v : β) :
    mapSet ([] : List (κ × β)) k v = [(k, v)] := rfl

theorem mapSet_singleton_self {κ β : Type} [DecidableEq κ] (k : κ) (v w : β) :
    mapSet [(k, v)] k w = [(k, w)] := by
  rw [mapSet_of_mem w (by simp)]
  simp

theorem shardOf_keys {V : Type} (l : List (DatabaseEntry V)) :
    (shardOf l).map Prod.fst = l.map (fun e => e.id) := by
  unfold shardOf
  rw [List.map_map]
  rfl

theorem lruEvictGo_noop {α : Type} (maxSize : Nat) (budget : Int)
    (o : List String) (cache : List (String × CacheSlot α)) (mem : Int)
    (h : ¬ (cache.length ≥ maxSize ∨ mem > budget)) :
    lruEvictGo maxSize budget o cache mem = (o, cache, mem) := by
  cases o with
  | nil => rfl
  | cons k rest =>
    unfold lruEvictGo
    rw [if_neg h]

theorem lruEvict_noop {α : Type} (st : LRUState α)
    (h : ¬ (st.cache.length ≥ st.maxSize ∨ st.currentMemoryBytes > st.budget)) :
    lruEvict st = st := by
  unfold lruEvict
  rw [lruEvictGo_noop _ _ _ _ _ h]

/-- One non-rollover `performWrite` of a fresh id against the canonical
single-shard state of the C2 write sequence. -/
theorem c2_write_step {V : Type} [DecidableEq V] (sizeOf : Shard V → Nat)
    (fsOk : Nat → Bool) (hfs : ∀ n, fsOk n = true)
    (hsize : ∀ s : Shard V, sizeOf s ≤ 200 * 1024 * 1024)
    (m : Shard V) (id : String) (e : DatabaseEntry V)
    (now tick hit miss : Nat) (wq : List (String × DatabaseEntry V))
    (st : FMState V)
    (hm : m.length < MAX_ENTRIES_PER_FILE)
    (hid : mapGet m id = none)
    (h1 : st.currentFileIndex = 0)
    (h2 : st.dataCache =
      { cache := [(fileName 0, { value := m, accessTime := now, size := sizeOf m })]
        accessOrder := [fileName 0]
        maxSize := 1000
        maxMemoryMB := 200
        currentMemoryBytes := (sizeOf m : Int)
        hitCount := hit
        missCount := miss })
    (h3 : st.disk = [(fileName 0, m)])
    (h4 : st.indices = [])
    (h5 : st.fsOk = fsOk) (h6 : st.tick = tick) (h7 : st.writeQueue = wq) :
    performWrite sizeOf st id e now =
    ({ currentFileIndex := 0
       currentEntryCount := (m ++ [(id, e)]).length
       dataCache :=
         { cache := [(fileName 0,
             { value := m ++ [(id, e)], accessTime := now,
               size := sizeOf (m ++ [(id, e)]) })]
           accessOrder := [fileName 0]
           maxSize := 1000
           maxMemoryMB := 200
           currentMemoryBytes := (sizeOf (m ++ [(id, e)]) : Int)
           hitCount := hit + 1
           missCount := miss }
       disk := [(fileName 0, m ++ [(id, e)])]
       indices := []
       writeQueue := wq
       fsOk := fsOk
       tick := tick + 1 }, none) := by
  have hfull : ¬ (m.length ≥ MAX_ENTRIES_PER_FILE) := by omega
  have hnewdata : mapSet m id e = m ++ [(id, e)] :=
    mapSet_of_not_mem e ((mapGet_eq_none_iff m id).mp hid)
  have hget : lruGet st.dataCache (fileName 0) now =
      (some m,
       { cache := [(fileName 0, { value := m, accessTime := now, size := sizeOf m })]
         accessOrder := [fileName 0]
         maxSize := 1000
         maxMemoryMB := 200
         currentMemoryBytes := (sizeOf m : Int)
         hitCount := hit + 1
         missCount := miss }) := by
    rw [h2]
    unfold lruGet
    rw [mapGet_singleton_self]
    dsimp only
    rw [mapSet_singleton_self]
    unfold lruTouch
    dsimp only
    rw [List.erase_cons_head]
    rfl
  have hset : lruSet sizeOf
      ({ cache := [(fileName 0, { value := m, accessTime := now, size := sizeOf m })]
         accessOrder := [fileName 0]
         maxSize := 1000
         maxMemoryMB := 200
         currentMemoryBytes := (sizeOf m : Int)
         hitCount := hit + 1
         missCount := miss } : LRUState (Shard V))
      (fileName 0) (m ++ [(id, e)]) now =
      { cache := [(fileName 0,
          { value := m ++ [(id, e)], accessTime := now,
            size := sizeOf (m ++ [(id, e)]) })]
        accessOrder := [fileName 0]
        maxSize := 1000
        maxMemoryMB := 200
        currentMemoryBytes := (sizeOf (m ++ [(id, e)]) : Int)
        hitCount := hit + 1
        missCount := miss } := by
    unfold lruSet
    rw [mapGet_singleton_self]
    dsimp only
    rw [mapSet_singleton_self]
    unfold lruTouch
    dsimp only
    rw [List.erase_cons_head, List.nil_append]
    simp only [sub_self, zero_add]
    refine lruEvict_noop _ ?_
    push_neg
    refine ⟨?_, ?_⟩
    · dsimp only
      norm_num
    · unfold LRUState.budget
      dsimp only
      have := hsize (m ++ [(id, e)])
      omega
  unfold performWrite
  dsimp only
  rw [h1, hget]
  dsimp only
  simp only [Option.getD_some]
  simp only [if_neg hfull]
  rw [hid]
  rw [h4, hnewdata]
  dsimp only [updateIndices, List.map_nil]
  rw [hset]
  rw [h3, h5, h6, h7]
  rw [hfs tick, if_pos rfl]
  rw [mapSet_singleton_self]

/-- The first `performWrite` ever, against the freshly constructed
`FileManager`. -/
theorem c2_write_base {V : Type} [DecidableEq V] (sizeOf : Shard V → Nat)
    (fsOk : Nat → Bool) (hfs : ∀ n, fsOk n = true)
    (hsize : ∀ s : Shard V, sizeOf s ≤ 200 * 1024 * 1024)
    (id : String) (e : DatabaseEntry V) (now : Nat) :
    performWrite sizeOf (fmInit V fsOk) id e now =
    ({ currentFileIndex := 0
       currentEntryCount := 1
       dataCache :=
         { cache := [(fileName 0,
             { value := [(id, e)], accessTime := now, size := sizeOf [(id, e)] })]
           accessOrder := [fileName 0]
           maxSize := 1000
           maxMemoryMB := 200
           currentMemoryBytes := (sizeOf [(id, e)] : Int)
           hitCount := 0
           missCount := 1 }
       disk := [(fileName 0, [(id, e)])]
       indices := []
       writeQueue := []
       fsOk := fsOk
       tick := 1 }, none) := by
  have hfull : ¬ (List.length ([] : Shard V) ≥ MAX_ENTRIES_PER_FILE) := by
    simp [MAX_ENTRIES_PER_FILE]
  have hset : lruSet sizeOf
      { cache := ([] : List (String × CacheSlot (Shard V)))
        accessOrder := []
        maxSize := 1000
        maxMemoryMB := 200
        currentMemoryBytes := 0
        hitCount := 0
        missCount := 1 }
      (fileName 0) [(id, e)] now =
      { cache := [(fileName 0,
          { value := [(id, e)], accessTime := now, size := sizeOf [(id, e)] })]
        accessOrder := [fileName 0]
        maxSize := 1000
        maxMemoryMB := 200
        currentMemoryBytes := (sizeOf [(id, e)] : Int)
        hitCount := 0
        missCount := 1 } := by
    unfold lruSet
    rw [mapGet_nil]
    dsimp only
    simp only [mapSet_nil]
    unfold lruTouch
    dsimp only
    rw [List.erase_nil, List.nil_append]
    simp only [zero_add]
    refine lruEvict_noop _ ?_
    push_neg
    refine ⟨?_, ?_⟩
    · dsimp only
      norm_num
    · unfold LRUState.budget
      dsimp only
      have := hsize [(id, e)]
      omega
  unfold performWrite fmInit lruInit
  dsimp only
  unfold lruGet
  rw [mapGet_nil]
  dsimp only
  simp only [Option.getD_none]
  simp only [if_neg hfull]
  rw [mapGet_nil]
  dsimp only [updateIndices, List.map_nil]
  simp only [mapSet_nil, Nat.zero_add]
  rw [hset]
  rw [hfs 0, if_pos rfl]
  rfl

/-- The rollover `performWrite`: the current shard is at capacity, so the
write advances to shard index 1 starting from an empty map, leaving shard 0
on disk untouched; only the disk (and success) is concluded. -/
theorem c2_write_rollover {V : Type} [DecidableEq V] (sizeOf : Shard V → Nat)
    (fsOk : Nat → Bool) (hfs : ∀ n, fsOk n = true)
    (m : Shard V) (id : String) (e : DatabaseEntry V)
    (now tick hit miss : Nat) (st : FMState V)
    (hm : m.length ≥ MAX_ENTRIES_PER_FILE)
    (h1 : st.currentFileIndex = 0)
    (h2 : st.dataCache =
      { cache := [(fileName 0, { value := m, accessTime := now, size := sizeOf m })]
        accessOrder := [fileName 0]
        maxSize := 1000
        maxMemoryMB := 200
        currentMemoryBytes := (sizeOf m : Int)
        hitCount := hit
        missCount := miss })
    (h3 : st.disk = [(fileName 0, m)])
    (h5 : st.fsOk = fsOk) (h6 : st.tick = tick) :
    (performWrite sizeOf st id e now).1.disk =
      [(fileName 0, m), (fileName 1, [(id, e)])] ∧
    (performWrite sizeOf st id e now).2 = none := by
  have hget : lruGet st.dataCache (fileName 0) now =
      (some m,
       { cache := [(fileName 0, { value := m, accessTime := now, size := sizeOf m })]
         accessOrder := [fileName 0]
         maxSize := 1000
         maxMemoryMB := 200
         currentMemoryBytes := (sizeOf m : Int)
         hitCount := hit + 1
         missCount := miss }) := by
    rw [h2]
    unfold lruGet
    rw [mapGet_singleton_self]
    dsimp only
    rw [mapSet_singleton_self]
    unfold lruTouch
    dsimp only
    rw [List.erase_cons_head]
    rfl
  have hdisk : mapSet [(fileName 0, m)] (fileName 1) [(id, e)] =
      [(fileName 0, m), (fileName 1, [(id, e)])] := by
    rw [mapSet_of_not_mem _ ?_]
    · rfl
    · intro hmem
      rw [List.map_cons, List.map_nil] at hmem
      exact absurd (List.mem_singleton.mp hmem)
        (show ¬ fileName 1 = fileName 0 by decide)
  unfold performWrite
  dsimp only
  rw [h1, hget]
  dsimp only
  simp only [Option.getD_some]
  simp only [if_pos hm]
  rw [mapGet_nil]
  dsimp only
  rw [h3]
  have h01 : (0 : Nat) + 1 = 1 := rfl
  simp only [mapSet_nil]
  rw [h01, hdisk]
  rw [h5, h6, hfs tick, if_pos rfl]
  exact ⟨rfl, rfl⟩


/-- The canonical state after the first `k` (of at most
`MAX_ENTRIES_PER_FILE`) distinct-id writes into a fresh store: everything
sits in shard 0, on disk and in the cache. -/
theorem c2_phase1 {V : Type} [DecidableEq V] (sizeOf : Shard V → Nat)
    (fsOk : Nat → Bool) (hfs : ∀ n, fsOk n = true)
    (hsize : ∀ s : Shard V, sizeOf s ≤ 200 * 1024 * 1024)
    (es : List (DatabaseEntry V)) (now : Nat)
    (hnd : (es.map (fun e => e.id)).Nodup) :
    ∀ k, 1 ≤ k → k ≤ MAX_ENTRIES_PER_FILE → k ≤ es.length →
    writeSeq sizeOf (fmInit V fsOk) (es.take k) now =
      { currentFileIndex := 0
        currentEntryCount := k
        dataCache :=
          { cache := [(fileName 0,
              { value := shardOf (es.take k), accessTime := now,
                size := sizeOf (shardOf (es.take k)) })]
            accessOrder := [fileName 0]
            maxSize := 1000
            maxMemoryMB := 200
            currentMemoryBytes := (sizeOf (shardOf (es.take k)) : Int)
            hitCount := k - 1
            missCount := 1 }
        disk := [(fileName 0, shardOf (es.take k))]
        indices := []
        writeQueue := []
        fsOk := fsOk
        tick := k } := by
  intro k
  induction k with
  | zero => intro h1k _ _; exact absurd h1k (by norm_num)
  | succ k ih =>
    intro _ hkmax hklen
    by_cases hk0 : k = 0
    · subst hk0
      cases es with
      | nil => exact absurd hklen (by simp)
      | cons e0 rest =>
        have htake1 : (e0 :: rest).take 1 = [e0] := rfl
        rw [htake1]
        unfold writeSeq
        rw [List.foldl_cons, List.foldl_nil]
        rw [c2_write_base sizeOf fsOk hfs hsize e0.id e0 now]
        rfl
    · have hk1 : 1 ≤ k := Nat.one_le_iff_ne_zero.mpr hk0
      have hk_lt : k < es.length := by omega
      have ihstate := ih hk1 (by omega) (by omega)
      have htake : es.take (k + 1) = es.take k ++ [es.get ⟨k, hk_lt⟩] := by
        rw [List.take_succ]
        congr 1
        rw [List.getElem?_eq_getElem hk_lt]
        simp [List.get_eq_getElem]
      have hlen_m : (shardOf (es.take k)).length = k := by
        simp only [shardOf, List.length_map, List.length_take]
        omega
      have hkeys : (shardOf (es.take k)).map Prod.fst =
          (es.take k).map (fun e => e.id) := shardOf_keys _
      have hid : mapGet (shardOf (es.take k)) (es.get ⟨k, hk_lt⟩).id = none := by
        rw [mapGet_eq_none_iff, hkeys]
        have hsplit := List.take_append_drop k es
        have hnd2 : ((es.take k).map (fun e => e.id) ++
            (es.drop k).map (fun e => e.id)).Nodup := by
          rw [← List.map_append, hsplit]
          exact hnd
        have hdisj := (List.nodup_append.mp hnd2).2.2
        have hmem : (es.get ⟨k, hk_lt⟩).id ∈ (es.drop k).map (fun e => e.id) := by
          rw [List.drop_eq_get_cons hk_lt]
          exact List.mem_cons_self _ _
        intro hin
        exact hdisj hin hmem
      rw [htake]
      unfold writeSeq at ihstate ⊢
      rw [List.foldl_append, ihstate, List.foldl_cons, List.foldl_nil]
      rw [c2_write_step sizeOf fsOk hfs hsize (shardOf (es.take k))
        (es.get ⟨k, hk_lt⟩).id (es.get ⟨k, hk_lt⟩) now k (k - 1) 1 [] _
        (by omega) hid rfl rfl rfl rfl rfl rfl rfl]
      have hshard : shardOf (es.take k) ++ [((es.get ⟨k, hk_lt⟩).id, es.get ⟨k, hk_lt⟩)] =
          shardOf (es.take (k + 1)) := by
        rw [htake]
        unfold shardOf
        rw [List.map_append]
        rfl
      rw [hshard]
      have hcount : (shardOf (es.take (k + 1))).length = k + 1 := by
        simp only [shardOf, List.length_map, List.length_take]
        omega
      rw [hcount]
      have hhit : k - 1 + 1 = k + 1 - 1 := by omega
      rw [hhit, ← htake]


/-- C2: writing `MAX_ENTRIES_PER_FILE + 1` distinct ids into an initially
empty store (with the disk oracle always succeeding and the shard-size
proxy within the cache budget, so no eviction interferes) produces exactly
two shard files on disk: `data.00000.json` holding exactly the first
`MAX_ENTRIES_PER_FILE` ids and `data.00001.json` exactly the last one —
the write that finds the current shard at capacity advances to a fresh
shard index starting from an empty map.  Moreover no single write is ever
split across two shards: every `performWrite` changes at most the one
shard file it targets. -/
theorem c2_shard_rollover {V : Type} [DecidableEq V] (sizeOf : Shard V → Nat)
    (fsOk : Nat → Bool) (es : List (DatabaseEntry V)) (now : Nat)
    (hfs : ∀ n, fsOk n = true)
    (hsize : ∀ s : Shard V, sizeOf s ≤ 200 * 1024 * 1024)
    (hnd : (es.map (fun e => e.id)).Nodup)
    (hlen : es.length = MAX_ENTRIES_PER_FILE + 1) :
    ((writeSeq sizeOf (fmInit V fsOk) es now).disk =
      [(fileName 0, shardOf (es.take MAX_ENTRIES_PER_FILE)),
       (fileName 1, shardOf (es.drop MAX_ENTRIES_PER_FILE))] ∧
     (shardOf (es.take MAX_ENTRIES_PER_FILE)).length = MAX_ENTRIES_PER_FILE ∧
     (shardOf (es.drop MAX_ENTRIES_PER_FILE)).length = 1) ∧
    (∀ (st : FMState V) (id : String) (e : DatabaseEntry V) (t : Nat),
      ∃ f, ∀ g, g ≠ f →
        mapGet (performWrite sizeOf st id e t).1.disk g = mapGet st.disk g) := by
  constructor
  · have hdrop1 : (es.drop MAX_ENTRIES_PER_FILE).length = 1 := by
      rw [List.length_drop, hlen]
      omega
    rcases List.length_eq_one.mp hdrop1 with ⟨eL, hdropeq⟩
    have hstate := c2_phase1 sizeOf fsOk hfs hsize es now hnd
      MAX_ENTRIES_PER_FILE (by decide) le_rfl (by omega)
    have hw : writeSeq sizeOf (fmInit V fsOk) es now =
        (performWrite sizeOf
          (writeSeq sizeOf (fmInit V fsOk) (es.take MAX_ENTRIES_PER_FILE) now)
          eL.id eL now).1 := by
      conv_lhs => rw [show es = es.take MAX_ENTRIES_PER_FILE ++ es.drop MAX_ENTRIES_PER_FILE from
        (List.take_append_drop _ es).symm]
      unfold writeSeq
      rw [List.foldl_append, hdropeq, List.foldl_cons, List.foldl_nil]
    have hm : (shardOf (es.take MAX_ENTRIES_PER_FILE)).length ≥ MAX_ENTRIES_PER_FILE := by
      simp only [shardOf, List.length_map, List.length_take]
      omega
    rw [hw, hstate]
    have hroll := c2_write_rollover sizeOf fsOk hfs
      (shardOf (es.take MAX_ENTRIES_PER_FILE)) eL.id eL now
      MAX_ENTRIES_PER_FILE (MAX_ENTRIES_PER_FILE - 1) 1
      ({ currentFileIndex := 0
         currentEntryCount := MAX_ENTRIES_PER_FILE
         dataCache :=
           { cache := [(fileName 0,
               { value := shardOf (es.take MAX_ENTRIES_PER_FILE), accessTime := now,
                 size := sizeOf (shardOf (es.take MAX_ENTRIES_PER_FILE)) })]
             accessOrder := [fileName 0]
             maxSize := 1000
             maxMemoryMB := 200
             currentMemoryBytes := (sizeOf (shardOf (es.take MAX_ENTRIES_PER_FILE)) : Int)
             hitCount := MAX_ENTRIES_PER_FILE - 1
             missCount := 1 }
         disk := [(fileName 0, shardOf (es.take MAX_ENTRIES_PER_FILE))]
         indices := []
         writeQueue := []
         fsOk := fsOk
         tick := MAX_ENTRIES_PER_FILE } : FMState V)
      hm rfl rfl rfl rfl rfl
    refine ⟨?_, ?_, ?_⟩
    · rw [hroll.1, hdropeq]
      rfl
    · simp only [shardOf, List.length_map, List.length_take]
      omega
    · rw [hdropeq]
      rfl
  · intro st id e t
    by_cases hok : st.fsOk st.tick = true
    · refine ⟨if (((lruGet st.dataCache (fileName st.currentFileIndex) t).1.getD []).length ≥
          MAX_ENTRIES_PER_FILE) then fileName (st.currentFileIndex + 1)
        else fileName st.currentFileIndex, ?_⟩
      intro g hg
      unfold performWrite
      dsimp only
      rw [if_pos hok]
      dsimp only
      by_cases hfull : ((lruGet st.dataCache (fileName st.currentFileIndex) t).1.getD []).length ≥
          MAX_ENTRIES_PER_FILE
      · simp only [if_pos hfull] at hg ⊢
        exact mapGet_mapSet_ne st.disk _ hg
      · simp only [if_neg hfull] at hg ⊢
        exact mapGet_mapSet_ne st.disk _ hg
    · refine ⟨fileName st.currentFileIndex, ?_⟩
      intro g hg
      unfold performWrite
      dsimp only
      rw [if_neg hok]


/-- Witness for C2: the hypotheses hold for 5001 records with pairwise
distinct ids, a size proxy that is always zero and an always-succeeding
disk, and the theorem applies. -/
theorem c2_shard_rollover_witness :
    ((c2Es.map (fun e => e.id)).Nodup ∧
     c2Es.length = MAX_ENTRIES_PER_FILE + 1) ∧
    (((writeSeq (fun _ => 0) (fmInit Unit (fun _ => true)) c2Es 0).disk =
        [(fileName 0, shardOf (c2Es.take MAX_ENTRIES_PER_FILE)),
         (fileName 1, shardOf (c2Es.drop MAX_ENTRIES_PER_FILE))] ∧
      (shardOf (c2Es.take MAX_ENTRIES_PER_FILE)).length = MAX_ENTRIES_PER_FILE ∧
      (shardOf (c2Es.drop MAX_ENTRIES_PER_FILE)).length = 1) ∧
     (∀ (st : FMState Unit) (id : String) (e : DatabaseEntry Unit) (t : Nat),
       ∃ f, ∀ g, g ≠ f →
         mapGet (performWrite (fun _ => 0) st id e t).1.disk g = mapGet st.disk g)) := by
  have hinj : Function.Injective c2IdOf := by
    intro a b hab
    have hd := congrArg String.data hab
    simp only [c2IdOf] at hd
    have := congrArg List.length hd
    simpa using this
  have hnd : (c2Es.map (fun e => e.id)).Nodup := by
    unfold c2Es
    rw [List.map_map]
    exact List.Nodup.map (fun a b hab => hinj hab) (List.nodup_range _)
  have hlen : c2Es.length = MAX_ENTRIES_PER_FILE + 1 := by
    unfold c2Es
    rw [List.length_map, List.length_range]
  exact ⟨⟨hnd, hlen⟩,
    c2_shard_rollover (fun _ => 0) (fun _ => true) c2Es 0 (fun _ => rfl)
      (fun _ => Nat.zero_le _) hnd hlen⟩


/-! ### C9: write-queue completion signalling -/

theorem seqDrain_nil {V : Type} [DecidableEq V] (sizeOf : Shard V → Nat)
    (st : FMState V) (now : Nat) :
    seqDrain sizeOf st [] now = (st, []) := rfl

theorem seqDrain_cons {V : Type} [DecidableEq V] (sizeOf : Shard V → Nat)
    (st : FMState V) (i : String × DatabaseEntry V)
    (rest : List (String × DatabaseEntry V)) (now : Nat) :
    seqDrain sizeOf st (i :: rest) now =
      ((seqDrain sizeOf (performWrite sizeOf st i.1 i.2 now).1 rest now).1,
       (i, (performWrite sizeOf st i.1 i.2 now).2) ::
         (seqDrain sizeOf (performWrite sizeOf st i.1 i.2 now).1 rest now).2) := rfl

theorem seqDrain_append {V : Type} [DecidableEq V] (sizeOf : Shard V → Nat)
    (now : Nat) :
    ∀ (a b : List (String × DatabaseEntry V)) (st : FMState V),
    seqDrain sizeOf st (a ++ b) now =
      ((seqDrain sizeOf (seqDrain sizeOf st a now).1 b now).1,
       (seqDrain sizeOf st a now).2 ++
         (seqDrain sizeOf (seqDrain sizeOf st a now).1 b now).2) := by
  intro a
  induction a with
  | nil => intro b st; rfl
  | cons i rest ih =>
    intro b st
    rw [List.cons_append, seqDrain_cons, seqDrain_cons]
    rw [ih b (performWrite sizeOf st i.1 i.2 now).1]
    rfl

theorem processBatch_spec {V : Type} [DecidableEq V] (sizeOf : Shard V → Nat)
    (now : Nat) :
    ∀ (l : List (String × DatabaseEntry V)) (st : FMState V),
    (processBatch sizeOf st l now).1 = (seqDrain sizeOf st l now).1 ∧
    l.zip (processBatch sizeOf st l now).2 = (seqDrain sizeOf st l now).2 := by
  intro l
  induction l with
  | nil => intro st; exact ⟨rfl, rfl⟩
  | cons i rest ih =>
    intro st
    rw [seqDrain_cons]
    unfold processBatch
    rcases ih (performWrite sizeOf st i.1 i.2 now).1 with ⟨h1, h2⟩
    refine ⟨h1, ?_⟩
    rw [List.zip_cons_cons, h2]

theorem drainFM_eq_seqDrain_aux {V : Type} [DecidableEq V]
    (sizeOf : Shard V → Nat) (now : Nat) :
    ∀ (n : Nat) (q : List (String × DatabaseEntry V)), q.length ≤ n →
    ∀ (st : FMState V), drainFM sizeOf st q now = seqDrain sizeOf st q now := by
  intro n
  induction n with
  | zero =>
    intro q hq st
    have : q = [] := List.eq_nil_of_length_eq_zero (by omega)
    subst this
    rw [drainFM]
    rfl
  | succ n ih =>
    intro q hq st
    by_cases hqnil : q = []
    · subst hqnil
      rw [drainFM]
      rfl
    · rw [drainFM]
      rw [dif_neg hqnil]
      dsimp only
      have hrest : (q.drop BATCH_SIZE).length ≤ n := by
        rw [List.length_drop]
        have : q.length ≠ 0 := fun h0 => hqnil (List.eq_nil_of_length_eq_zero h0)
        simp only [BATCH_SIZE]
        omega
      rcases processBatch_spec sizeOf now (q.take BATCH_SIZE) st with ⟨h1, h2⟩
      rw [ih (q.drop BATCH_SIZE) hrest]
      conv_rhs => rw [show q = q.take BATCH_SIZE ++ q.drop BATCH_SIZE from
        (List.take_append_drop _ q).symm]
      rw [seqDrain_append]
      rw [h1, h2]

theorem seqDrain_map_fst {V : Type} [DecidableEq V] (sizeOf : Shard V → Nat)
    (now : Nat) :
    ∀ (q : List (String × DatabaseEntry V)) (st : FMState V),
    (seqDrain sizeOf st q now).2.map Prod.fst = q := by
  intro q
  induction q with
  | nil => intro st; rfl
  | cons i rest ih =>
    intro st
    rw [seqDrain_cons, List.map_cons, ih]

theorem seqDrain_outcome {V : Type} [DecidableEq V] (sizeOf : Shard V → Nat)
    (now : Nat) :
    ∀ (q : List (String × DatabaseEntry V)) (k : Nat) (hk : k < q.length)
      (st : FMState V),
    (seqDrain sizeOf st q now).2.get? k =
      some (q.get ⟨k, hk⟩,
        (performWrite sizeOf (seqDrain sizeOf st (q.take k) now).1
          (q.get ⟨k, hk⟩).1 (q.get ⟨k, hk⟩).2 now).2) := by
  intro q
  induction q with
  | nil => intro k hk st; exact absurd hk (by simp)
  | cons i rest ih =>
    intro k hk st
    cases k with
    | zero =>
      rw [seqDrain_cons]
      rfl
    | succ k =>
      rw [seqDrain_cons]
      have hk2 : k < rest.length := by
        rw [List.length_cons] at hk
        omega
      show (seqDrain sizeOf (performWrite sizeOf st i.1 i.2 now).1 rest now).2.get? k = _
      rw [ih k hk2 (performWrite sizeOf st i.1 i.2 now).1]
      rfl

theorem performWrite_success_disk {V : Type} [DecidableEq V]
    (sizeOf : Shard V → Nat) (s : FMState V) (id : String)
    (e : DatabaseEntry V) (t : Nat)
    (hsucc : (performWrite sizeOf s id e t).2 = none) :
    ∃ f sh, mapGet (performWrite sizeOf s id e t).1.disk f = some sh ∧
      mapGet sh id = some e := by
  unfold performWrite at hsucc ⊢
  dsimp only at hsucc ⊢
  by_cases hok : s.fsOk s.tick = true
  · rw [if_pos hok]
    dsimp only
    exact ⟨_, _, mapGet_mapSet_self _ _ _, mapGet_mapSet_self _ _ _⟩
  · rw [if_neg hok] at hsucc
    exact absurd hsucc (by simp)

/-- C9: each item enqueued on the write queue receives a completion that is
settled with the outcome of that item's own `performWrite` attempt against
the state left by the items before it — the batched drain loop
(`processWriteQueue`, batches of `BATCH_SIZE` with immediate re-entry) is
outcome-for-outcome identical to processing the queue one item at a time, so
a completion is never resolved merely because its batch started; the drain
produces exactly one completion per accepted item, in order, and whenever an
item's completion reports success, the item's id sits on disk, in the shard
file its own write produced, in the state right after that attempt. -/
theorem c9_completion_per_item {V : Type} [DecidableEq V]
    (sizeOf : Shard V → Nat) (st : FMState V)
    (q : List (String × DatabaseEntry V)) (now : Nat) :
    drainFM sizeOf st q now = seqDrain sizeOf st q now ∧
    (drainFM sizeOf st q now).2.map Prod.fst = q ∧
    (∀ k, (hk : k < q.length) →
      (drainFM sizeOf st q now).2.get? k =
        some (q.get ⟨k, hk⟩,
          (performWrite sizeOf (seqDrain sizeOf st (q.take k) now).1
            (q.get ⟨k, hk⟩).1 (q.get ⟨k, hk⟩).2 now).2)) ∧
    (∀ (s : FMState V) (id : String) (e : DatabaseEntry V) (t : Nat),
      (performWrite sizeOf s id e t).2 = none →
      ∃ f sh, mapGet (performWrite sizeOf s id e t).1.disk f = some sh ∧
        mapGet sh id = some e) := by
  have hmain := drainFM_eq_seqDrain_aux sizeOf now q.length q le_rfl st
  refine ⟨hmain, ?_, ?_, ?_⟩
  · rw [hmain]
    exact seqDrain_map_fst sizeOf now q st
  · intro k hk
    rw [hmain]
    exact seqDrain_outcome sizeOf now q k hk st
  · intro s id e t hsucc
    exact performWrite_success_disk sizeOf s id e t hsucc


/-- C9 witness: on a fresh `FileManager` with a one-item queue, the drain
equals the sequential drain, produces the single completion for `"a"`, that
completion carries the outcome of the item's own write attempt, and since
that attempt succeeds the record is on disk afterwards. -/
theorem c9_completion_per_item_witness :
    drainFM (fun _ => 0) c9St c9Q 0 = seqDrain (fun _ => 0) c9St c9Q 0 ∧
    (drainFM (fun _ => 0) c9St c9Q 0).2.map Prod.fst = c9Q ∧
    (drainFM (fun _ => 0) c9St c9Q 0).2.get? 0 =
      some (c9Q.get ⟨0, by decide⟩,
        (performWrite (fun _ => 0) (seqDrain (fun _ => 0) c9St (c9Q.take 0) 0).1
          (c9Q.get ⟨0, by decide⟩).1 (c9Q.get ⟨0, by decide⟩).2 0).2) ∧
    ((performWrite (fun _ => 0) c9St "a" c9E 0).2 = none ∧
      ∃ f sh, mapGet (performWrite (fun _ => 0) c9St "a" c9E 0).1.disk f = some sh ∧
        mapGet sh "a" = some c9E) :=
  ⟨(c9_completion_per_item (fun _ => 0) c9St c9Q 0).1,
   (c9_completion_per_item (fun _ => 0) c9St c9Q 0).2.1,
   (c9_completion_per_item (fun _ => 0) c9St c9Q 0).2.2.1 0 (by decide),
   by decide,
   (c9_completion_per_item (fun _ => 0) c9St c9Q 0).2.2.2 c9St "a" c9E 0 (by decide)⟩


/-! ### C3: index maintenance and `getByIndex` exactness -/

theorem mapGet_mapDel {κ β : Type} [DecidableEq κ] (m : List (κ × β))
    (k q : κ) :
    mapGet (mapDel m k) q = if q = k then none else mapGet m q := by
  induction m with
  | nil =>
    rw [mapDel_nil, mapGet_nil]
    by_cases hq : q = k
    · rw [if_pos hq]
    · rw [if_neg hq]
  | cons p t ih =>
    rw [mapDel_cons]
    by_cases hp : p.1 = k
    · rw [if_pos hp, ih]
      by_cases hq : q = k
      · rw [if_pos hq, if_pos hq]
      · rw [if_neg hq, if_neg hq, mapGet_cons,
          if_neg (fun h => hq (h.symm.trans hp))]
    · rw [if_neg hp, mapGet_cons, mapGet_cons, ih]
      by_cases hpq : p.1 = q
      · rw [if_pos hpq, if_neg (fun hq => hp (hpq.trans hq))]
        rw [if_pos hpq]
      · rw [if_neg hpq]
        by_cases hq : q = k
        · rw [if_pos hq, if_pos hq]
        · rw [if_neg hq, if_neg hq, if_neg hpq]

theorem listIsEmpty_iff {α : Type} (l : List α) : l.isEmpty = true ↔ l = [] := by
  cases l <;> simp

theorem mapSet_length_le {κ β : Type} [DecidableEq κ] (m : List (κ × β))
    (k : κ) (v : β) : (mapSet m k v).length ≤ m.length + 1 := by
  by_cases hk : k ∈ m.map Prod.fst
  · rw [mapSet_of_mem v hk, List.length_map]
    omega
  · rw [mapSet_of_not_mem v hk, List.length_append]
    simp

theorem mapGet_idxAdd_self {V : Type} [DecidableEq V] (im : IndexMap V)
    (x : V) (id : String) :
    mapGet (idxAdd im x id) x =
      some (match mapGet im x with
            | none => [id]
            | some s => if id ∈ s then s else s ++ [id]) := by
  unfold idxAdd
  cases h : mapGet im x with
  | none => rw [mapGet_mapSet_self]
  | some s => rw [mapGet_mapSet_self]

theorem mapGet_idxAdd_ne {V : Type} [DecidableEq V] (im : IndexMap V)
    {x y : V} (id : String) (h : y ≠ x) :
    mapGet (idxAdd im x id) y = mapGet im y := by
  unfold idxAdd
  cases hx : mapGet im x with
  | none => exact mapGet_mapSet_ne im _ h
  | some s => exact mapGet_mapSet_ne im _ h

theorem mapGet_idxRemove_self {V : Type} [DecidableEq V] (im : IndexMap V)
    (x : V) (id : String) :
    mapGet (idxRemove im x id) x =
      match mapGet im x with
      | none => none
      | some s => if (s.erase id).isEmpty then none else some (s.erase id) := by
  unfold idxRemove
  cases h : mapGet im x with
  | none => exact h
  | some s =>
    dsimp only
    by_cases he : (s.erase id).isEmpty = true
    · rw [if_pos he, if_pos he, mapGet_mapDel, if_pos rfl]
    · rw [if_neg he, if_neg he, mapGet_mapSet_self]

theorem mapGet_idxRemove_ne {V : Type} [DecidableEq V] (im : IndexMap V)
    {x y : V} (id : String) (h : y ≠ x) :
    mapGet (idxRemove im x id) y = mapGet im y := by
  unfold idxRemove
  cases hx : mapGet im x with
  | none => rfl
  | some s =>
    dsimp only
    by_cases he : (s.erase id).isEmpty = true
    · rw [if_pos he, mapGet_mapDel, if_neg h]
    · rw [if_neg he]
      exact mapGet_mapSet_ne im _ h

theorem matchesF_mapSet {V : Type} [DecidableEq V] (f : String) (m : Shard V)
    (id : String) (e : DatabaseEntry V) (x : V) (q : String) :
    matchesF f (mapSet m id e) x q ↔
      (q = id ∧ mapGet e.value f = some x) ∨ (q ≠ id ∧ matchesF f m x q) := by
  unfold matchesF
  by_cases hq : q = id
  · subst hq
    rw [mapGet_mapSet_self]
    constructor
    · rintro ⟨e2, he2, hv⟩
      have heq := Option.some.inj he2
      subst heq
      exact Or.inl ⟨rfl, hv⟩
    · rintro (⟨-, hv⟩ | ⟨hne, -⟩)
      · exact ⟨e, rfl, hv⟩
      · exact absurd rfl hne
  · rw [mapGet_mapSet_ne m _ hq]
    constructor
    · intro hm
      exact Or.inr ⟨hq, hm⟩
    · rintro (⟨heq, -⟩ | ⟨-, hm⟩)
      · exact absurd heq hq
      · exact hm

theorem matchesF_mapDel {V : Type} [DecidableEq V] (f : String) (m : Shard V)
    (id : String) (x : V) (q : String) :
    matchesF f (mapDel m id) x q ↔ q ≠ id ∧ matchesF f m x q := by
  unfold matchesF
  rw [mapGet_mapDel]
  by_cases hq : q = id
  · rw [if_pos hq]
    constructor
    · rintro ⟨e, he, -⟩
      exact Option.noConfusion he
    · rintro ⟨hne, -⟩
      exact absurd hq hne
  · rw [if_neg hq]
    exact ⟨fun h => ⟨hq, h⟩, fun h => h.2⟩

theorem ExactIdx_congr {V : Type} [DecidableEq V] (f : String)
    (im : IndexMap V) {m1 m2 : Shard V}
    (h : ∀ id, mapGet m1 id = mapGet m2 id) (hex : ExactIdx f im m1) :
    ExactIdx f im m2 := by
  have hm : ∀ x id, matchesF f m1 x id ↔ matchesF f m2 x id := by
    intro x id
    unfold matchesF
    rw [h id]
  obtain ⟨h1, h2⟩ := hex
  constructor
  · intro x s hs
    obtain ⟨a, b, c⟩ := h1 x s hs
    exact ⟨a, b, fun id => (c id).trans (hm x id)⟩
  · intro x hx id hmid
    exact h2 x hx id ((hm x id).mpr hmid)

theorem updateIndices_singleton {V : Type} [DecidableEq V] (f : String)
    (im : IndexMap V) (id : String) (data : Value V) (op : IdxOp) :
    updateIndices [(f, im)] id data op = [(f, idxApply im id data f op)] := by
  unfold updateIndices idxApply
  rw [List.map_singleton]
  cases h : mapGet data f with
  | none => rfl
  | some x => cases op <;> rfl

/-- Inserting a fresh record keeps the index exact: `performWrite` adds the
id under the record's field value (the `add` arm of `updateIndices`). -/
theorem ExactIdx_add {V : Type} [DecidableEq V] (f : String) (im : IndexMap V)
    (m : Shard V) (id : String) (e : DatabaseEntry V)
    (hex : ExactIdx f im m) (hid : mapGet m id = none) :
    ExactIdx f (idxApply im id e.value f IdxOp.add) (mapSet m id e) := by
  obtain ⟨h1, h2⟩ := hex
  have hnom : ∀ x, ¬ matchesF f m x id := by
    intro x hm
    obtain ⟨e2, he2, -⟩ := hm
    rw [hid] at he2
    exact Option.noConfusion he2
  unfold idxApply
  cases hv : mapGet e.value f with
  | none =>
    constructor
    · intro x s hs
      obtain ⟨hne, hnd, hmem⟩ := h1 x s hs
      refine ⟨hne, hnd, fun q => ?_⟩
      rw [hmem q, matchesF_mapSet]
      constructor
      · intro hm
        exact Or.inr ⟨fun heq => hnom x (heq ▸ hm), hm⟩
      · rintro (⟨heq, hvx⟩ | ⟨-, hm⟩)
        · rw [hv] at hvx
          exact Option.noConfusion hvx
        · exact hm
    · intro x hx q hmm
      rw [matchesF_mapSet] at hmm
      rcases hmm with ⟨heq, hvx⟩ | ⟨-, hm⟩
      · rw [hv] at hvx
        exact Option.noConfusion hvx
      · exact h2 x hx q hm
  | some v =>
    dsimp only
    constructor
    · intro x s hs
      by_cases hxv : x = v
      · subst hxv
        rw [mapGet_idxAdd_self] at hs
        have hseq := Option.some.inj hs
        cases him : mapGet im x with
        | none =>
          rw [him] at hseq
          dsimp only at hseq
          subst hseq
          refine ⟨by simp, List.nodup_singleton id, fun q => ?_⟩
          rw [List.mem_singleton, matchesF_mapSet]
          constructor
          · intro heq
            exact Or.inl ⟨heq, hv⟩
          · rintro (⟨heq, -⟩ | ⟨hne, hm⟩)
            · exact heq
            · exact absurd hm (h2 x him q)
        | some s0 =>
          obtain ⟨hne0, hnd0, hmem0⟩ := h1 x s0 him
          have hid0 : id ∉ s0 := fun hin => hnom x ((hmem0 id).mp hin)
          rw [him] at hseq
          dsimp only at hseq
          rw [if_neg hid0] at hseq
          subst hseq
          refine ⟨by simp, ?_, ?_⟩
          · rw [List.nodup_append]
            exact ⟨hnd0, List.nodup_singleton id,
              fun a ha hb => hid0 ((List.mem_singleton.mp hb) ▸ ha)⟩
          · intro q
            rw [List.mem_append, List.mem_singleton, matchesF_mapSet]
            constructor
            · rintro (hin | heq)
              · exact Or.inr ⟨fun hq => hid0 (hq ▸ hin), (hmem0 q).mp hin⟩
              · exact Or.inl ⟨heq, hv⟩
            · rintro (⟨heq, -⟩ | ⟨hne, hm⟩)
              · exact Or.inr heq
              · exact Or.inl ((hmem0 q).mpr hm)
      · rw [mapGet_idxAdd_ne im id hxv] at hs
        obtain ⟨hne0, hnd0, hmem0⟩ := h1 x s hs
        refine ⟨hne0, hnd0, fun q => ?_⟩
        rw [hmem0 q, matchesF_mapSet]
        constructor
        · intro hm
          exact Or.inr ⟨fun heq => hnom x (heq ▸ hm), hm⟩
        · rintro (⟨heq, hvx⟩ | ⟨-, hm⟩)
          · rw [hv] at hvx
            exact absurd (Option.some.inj hvx).symm hxv
          · exact hm
    · intro x hx q hm
      by_cases hxv : x = v
      · subst hxv
        rw [mapGet_idxAdd_self] at hx
        exact Option.noConfusion hx
      · rw [mapGet_idxAdd_ne im id hxv] at hx
        rw [matchesF_mapSet] at hm
        rcases hm with ⟨heq, hvx⟩ | ⟨-, hm2⟩
        · rw [hv] at hvx
          exact hxv (Option.some.inj hvx).symm
        · exact h2 x hx q hm2

/-- Deleting a record keeps the index exact: the `remove` arm of
`updateIndices` erases the id and drops the entry when its id-set
empties. -/
theorem ExactIdx_remove {V : Type} [DecidableEq V] (f : String)
    (im : IndexMap V) (m : Shard V) (id : String) (old : DatabaseEntry V)
    (hex : ExactIdx f im m) (hid : mapGet m id = some old) :
    ExactIdx f (idxApply im id old.value f IdxOp.remove) (mapDel m id) := by
  obtain ⟨h1, h2⟩ := hex
  unfold idxApply
  cases hv : mapGet old.value f with
  | none =>
    have hnom : ∀ x, ¬ matchesF f m x id := by
      intro x hm
      obtain ⟨e2, he2, hv2⟩ := hm
      rw [hid] at he2
      have heq := Option.some.inj he2
      subst heq
      rw [hv] at hv2
      exact Option.noConfusion hv2
    constructor
    · intro x s hs
      obtain ⟨hne0, hnd0, hmem0⟩ := h1 x s hs
      refine ⟨hne0, hnd0, fun q => ?_⟩
      rw [hmem0 q, matchesF_mapDel]
      constructor
      · intro hm
        exact ⟨fun heq => hnom x (heq ▸ hm), hm⟩
      · exact fun h => h.2
    · intro x hx q hm
      rw [matchesF_mapDel] at hm
      exact h2 x hx q hm.2
  | some v =>
    dsimp only
    have hmatch : matchesF f m v id := ⟨old, hid, hv⟩
    constructor
    · intro x s hs
      by_cases hxv : x = v
      · subst hxv
        rw [mapGet_idxRemove_self] at hs
        cases him : mapGet im x with
        | none => exact absurd hmatch (h2 x him id)
        | some s0 =>
          rw [him] at hs
          dsimp only at hs
          obtain ⟨hne0, hnd0, hmem0⟩ := h1 x s0 him
          by_cases he : (s0.erase id).isEmpty = true
          · rw [if_pos he] at hs
            exact Option.noConfusion hs
          · rw [if_neg he] at hs
            have hseq := Option.some.inj hs
            subst hseq
            refine ⟨fun hnil => he (by rw [hnil]; rfl), hnd0.erase id, fun q => ?_⟩
            rw [hnd0.mem_erase_iff, matchesF_mapDel, hmem0 q]
      · rw [mapGet_idxRemove_ne im id hxv] at hs
        obtain ⟨hne0, hnd0, hmem0⟩ := h1 x s hs
        refine ⟨hne0, hnd0, fun q => ?_⟩
        rw [hmem0 q, matchesF_mapDel]
        constructor
        · intro hm
          refine ⟨fun heq => ?_, hm⟩
          subst heq
          obtain ⟨e2, he2, hv2⟩ := hm
          rw [hid] at he2
          have heq2 := Option.some.inj he2
          subst heq2
          rw [hv] at hv2
          exact hxv (Option.some.inj hv2).symm
        · exact fun h => h.2
    · intro x hx q hm
      rw [matchesF_mapDel] at hm
      obtain ⟨hne, hm2⟩ := hm
      by_cases hxv : x = v
      · subst hxv
        rw [mapGet_idxRemove_self] at hx
        cases him : mapGet im x with
        | none => exact h2 x him q hm2
        | some s0 =>
          rw [him] at hx
          dsimp only at hx
          obtain ⟨hne0, hnd0, hmem0⟩ := h1 x s0 him
          by_cases he : (s0.erase id).isEmpty = true
          · have hin : q ∈ s0.erase id :=
              (hnd0.mem_erase_iff).mpr ⟨hne, (hmem0 q).mpr hm2⟩
            rw [(listIsEmpty_iff _).mp he] at hin
            exact absurd hin (List.not_mem_nil q)
          · rw [if_neg he] at hx
            exact Option.noConfusion hx
      · rw [mapGet_idxRemove_ne im id hxv] at hx
        exact h2 x hx q hm2

/-- Updating an existing record keeps the index exact: `performWrite` first
removes the id under the old value, then adds it under the new one. -/
theorem ExactIdx_update {V : Type} [DecidableEq V] (f : String)
    (im : IndexMap V) (m : Shard V) (id : String) (old e : DatabaseEntry V)
    (hex : ExactIdx f im m) (hid : mapGet m id = some old) :
    ExactIdx f
      (idxApply (idxApply im id old.value f IdxOp.remove) id e.value f IdxOp.add)
      (mapSet m id e) := by
  have hrem := ExactIdx_remove f im m id old hex hid
  have hadd := ExactIdx_add f _ (mapDel m id) id e hrem
    (by rw [mapGet_mapDel, if_pos rfl])
  refine ExactIdx_congr f _ (fun q => ?_) hadd
  by_cases hq : q = id
  · subst hq
    rw [mapGet_mapSet_self, mapGet_mapSet_self]
  · rw [mapGet_mapSet_ne _ _ hq, mapGet_mapSet_ne _ _ hq, mapGet_mapDel, if_neg hq]

/-- The first `performWrite` against a freshly constructed `FileManager`
carrying an arbitrary set of indices. -/
theorem c3_write_base {V : Type} [DecidableEq V] (sizeOf : Shard V → Nat)
    (fsOk : Nat → Bool) (hfs : ∀ n, fsOk n = true)
    (hsize : ∀ s : Shard V, sizeOf s ≤ 200 * 1024 * 1024)
    (I : List (String × IndexMap V)) (id : String) (e : DatabaseEntry V)
    (now : Nat) (st : FMState V)
    (h1 : st.currentFileIndex = 0)
    (h2 : st.dataCache = lruInit (Shard V) 1000 200)
    (h3 : st.disk = [])
    (h4 : st.indices = I)
    (h5 : st.fsOk = fsOk) (h6 : st.tick = 0) (h7 : st.writeQueue = []) :
    performWrite sizeOf st id e now =
    ({ currentFileIndex := 0
       currentEntryCount := 1
       dataCache :=
         { cache := [(fileName 0,
             { value := [(id, e)], accessTime := now, size := sizeOf [(id, e)] })]
           accessOrder := [fileName 0]
           maxSize := 1000
           maxMemoryMB := 200
           currentMemoryBytes := (sizeOf [(id, e)] : Int)
           hitCount := 0
           missCount := 1 }
       disk := [(fileName 0, [(id, e)])]
       indices := updateIndices I id e.value IdxOp.add
       writeQueue := []
       fsOk := fsOk
       tick := 1 }, none) := by
  have hfull : ¬ (List.length ([] : Shard V) ≥ MAX_ENTRIES_PER_FILE) := by
    simp [MAX_ENTRIES_PER_FILE]
  have hget : lruGet st.dataCache (fileName 0) now =
      (none,
       { cache := []
         accessOrder := []
         maxSize := 1000
         maxMemoryMB := 200
         currentMemoryBytes := 0
         hitCount := 0
         missCount := 1 }) := by
    rw [h2]
    unfold lruInit lruGet
    rw [mapGet_nil]
  have hset : lruSet sizeOf
      ({ cache := ([] : List (String × CacheSlot (Shard V)))
         accessOrder := []
         maxSize := 1000
         maxMemoryMB := 200
         currentMemoryBytes := 0
         hitCount := 0
         missCount := 1 } : LRUState (Shard V))
      (fileName 0) [(id, e)] now =
      { cache := [(fileName 0,
          { value := [(id, e)], accessTime := now, size := sizeOf [(id, e)] })]
        accessOrder := [fileName 0]
        maxSize := 1000
        maxMemoryMB := 200
        currentMemoryBytes := (sizeOf [(id, e)] : Int)
        hitCount := 0
        missCount := 1 } := by
    unfold lruSet
    rw [mapGet_nil]
    dsimp only
    simp only [mapSet_nil]
    unfold lruTouch
    dsimp only
    rw [List.erase_nil, List.nil_append]
    simp only [zero_add]
    refine lruEvict_noop _ ?_
    push_neg
    refine ⟨?_, ?_⟩
    · dsimp only
      norm_num
    · unfold LRUState.budget
      dsimp only
      have := hsize [(id, e)]
      omega
  unfold performWrite
  dsimp only
  rw [h1, hget]
  dsimp only
  simp only [Option.getD_none]
  simp only [if_neg hfull]
  rw [mapGet_nil]
  rw [h4]
  dsimp only
  simp only [mapSet_nil]
  rw [hset]
  rw [h3, h5, h6, h7]
  rw [hfs 0, if_pos rfl]
  rfl

/-- One non-rollover `performWrite` against the canonical single-shard
state, with arbitrary indices and the written id possibly already
present. -/
theorem c3_write_step {V : Type} [DecidableEq V] (sizeOf : Shard V → Nat)
    (fsOk : Nat → Bool) (hfs : ∀ n, fsOk n = true)
    (hsize : ∀ s : Shard V, sizeOf s ≤ 200 * 1024 * 1024)
    (m : Shard V) (I : List (String × IndexMap V)) (id : String)
    (e : DatabaseEntry V) (now tick hit miss : Nat) (st : FMState V)
    (hm : m.length < MAX_ENTRIES_PER_FILE)
    (h1 : st.currentFileIndex = 0)
    (h2 : st.dataCache =
      { cache := [(fileName 0, { value := m, accessTime := now, size := sizeOf m })]
        accessOrder := [fileName 0]
        maxSize := 1000
        maxMemoryMB := 200
        currentMemoryBytes := (sizeOf m : Int)
        hitCount := hit
        missCount := miss })
    (h3 : st.disk = [(fileName 0, m)])
    (h4 : st.indices = I)
    (h5 : st.fsOk = fsOk) (h6 : st.tick = tick) (h7 : st.writeQueue = []) :
    performWrite sizeOf st id e now =
    ({ currentFileIndex := 0
       currentEntryCount := (mapSet m id e).length
       dataCache :=
         { cache := [(fileName 0,
             { value := mapSet m id e, accessTime := now,
               size := sizeOf (mapSet m id e) })]
           accessOrder := [fileName 0]
           maxSize := 1000
           maxMemoryMB := 200
           currentMemoryBytes := (sizeOf (mapSet m id e) : Int)
           hitCount := hit + 1
           missCount := miss }
       disk := [(fileName 0, mapSet m id e)]
       indices := updateIndices
         (match mapGet m id with
          | some old => updateIndices I id old.value IdxOp.remove
          | none => I) id e.value IdxOp.add
       writeQueue := []
       fsOk := fsOk
       tick := tick + 1 }, none) := by
  have hfull : ¬ (m.length ≥ MAX_ENTRIES_PER_FILE) := by omega
  have hget : lruGet st.dataCache (fileName 0) now =
      (some m,
       { cache := [(fileName 0, { value := m, accessTime := now, size := sizeOf m })]
         accessOrder := [fileName 0]
         maxSize := 1000
         maxMemoryMB := 200
         currentMemoryBytes := (sizeOf m : Int)
         hitCount := hit + 1
         missCount := miss }) := by
    rw [h2]
    unfold lruGet
    rw [mapGet_singleton_self]
    dsimp only
    rw [mapSet_singleton_self]
    unfold lruTouch
    dsimp only
    rw [List.erase_cons_head]
    rfl
  have hset : lruSet sizeOf
      ({ cache := [(fileName 0, { value := m, accessTime := now, size := sizeOf m })]
         accessOrder := [fileName 0]
         maxSize := 1000
         maxMemoryMB := 200
         currentMemoryBytes := (sizeOf m : Int)
         hitCount := hit + 1
         missCount := miss } : LRUState (Shard V))
      (fileName 0) (mapSet m id e) now =
      { cache := [(fileName 0,
          { value := mapSet m id e, accessTime := now,
            size := sizeOf (mapSet m id e) })]
        accessOrder := [fileName 0]
        maxSize := 1000
        maxMemoryMB := 200
        currentMemoryBytes := (sizeOf (mapSet m id e) : Int)
        hitCount := hit + 1
        missCount := miss } := by
    unfold lruSet
    rw [mapGet_singleton_self]
    dsimp only
    rw [mapSet_singleton_self]
    unfold lruTouch
    dsimp only
    rw [List.erase_cons_head, List.nil_append]
    simp only [sub_self, zero_add]
    refine lruEvict_noop _ ?_
    push_neg
    refine ⟨?_, ?_⟩
    · dsimp only
      norm_num
    · unfold LRUState.budget
      dsimp only
      have := hsize (mapSet m id e)
      omega
  unfold performWrite
  dsimp only
  rw [h1, hget]
  dsimp only
  simp only [Option.getD_some]
  simp only [if_neg hfull]
  rw [h4]
  rw [hset]
  rw [h3, h5, h6, h7]
  rw [hfs tick, if_pos rfl]
  rw [mapSet_singleton_self]

/-- The single-shard shape and the index exactness are preserved by any
sequence of writes that stays below the shard capacity. -/
theorem c3_inv {V : Type} [DecidableEq V] (sizeOf : Shard V → Nat)
    (fsOk : Nat → Bool) (hfs : ∀ n, fsOk n = true)
    (hsize : ∀ s : Shard V, sizeOf s ≤ 200 * 1024 * 1024)
    (f : String) (now : Nat) :
    ∀ (es : List (DatabaseEntry V)) (st : FMState V) (m : Shard V)
      (im : IndexMap V) (hit miss tick : Nat),
    m.length + es.length ≤ MAX_ENTRIES_PER_FILE →
    C3Shape fsOk sizeOf f now st m im hit miss tick →
    ExactIdx f im m →
    ∃ im2 hit2 miss2 tick2,
      C3Shape fsOk sizeOf f now (writeSeq sizeOf st es now) (shardFold m es)
        im2 hit2 miss2 tick2 ∧
      ExactIdx f im2 (shardFold m es) := by
  intro es
  induction es with
  | nil =>
    intro st m im hit miss tick _ hshape hex
    exact ⟨im, hit, miss, tick, hshape, hex⟩
  | cons e rest ih =>
    intro st m im hit miss tick hlen hshape hex
    obtain ⟨s1, s2, s3, s4, s5, s6, s7⟩ := hshape
    have hmlen : m.length < MAX_ENTRIES_PER_FILE := by
      rw [List.length_cons] at hlen
      omega
    have hstep := c3_write_step sizeOf fsOk hfs hsize m [(f, im)] e.id e now
      tick hit miss st hmlen s1 s2 s3 s4 s5 s6 s7
    have hlen2 : (mapSet m e.id e).length + rest.length ≤ MAX_ENTRIES_PER_FILE := by
      have hle := mapSet_length_le m e.id e
      rw [List.length_cons] at hlen
      omega
    have hws : writeSeq sizeOf st (e :: rest) now =
        writeSeq sizeOf (performWrite sizeOf st e.id e now).1 rest now := rfl
    have hsf : shardFold m (e :: rest) = shardFold (mapSet m e.id e) rest := rfl
    rw [hws, hsf]
    cases hold : mapGet m e.id with
    | none =>
      rw [hold] at hstep
      dsimp only at hstep
      rw [updateIndices_singleton f im e.id e.value IdxOp.add] at hstep
      have hex2 := ExactIdx_add f im m e.id e hex hold
      have hshape2 : C3Shape fsOk sizeOf f now
          (performWrite sizeOf st e.id e now).1 (mapSet m e.id e)
          (idxApply im e.id e.value f IdxOp.add) (hit + 1) miss (tick + 1) := by
        rw [hstep]
        exact ⟨rfl, rfl, rfl, rfl, rfl, rfl, rfl⟩
      exact ih (performWrite sizeOf st e.id e now).1 (mapSet m e.id e) _
        (hit + 1) miss (tick + 1) hlen2 hshape2 hex2
    | some old =>
      rw [hold] at hstep
      dsimp only at hstep
      rw [updateIndices_singleton f im e.id old.value IdxOp.remove] at hstep
      rw [updateIndices_singleton f _ e.id e.value IdxOp.add] at hstep
      have hex2 := ExactIdx_update f im m e.id old e hex hold
      have hshape2 : C3Shape fsOk sizeOf f now
          (performWrite sizeOf st e.id e now).1 (mapSet m e.id e)
          (idxApply (idxApply im e.id old.value f IdxOp.remove) e.id e.value f
            IdxOp.add) (hit + 1) miss (tick + 1) := by
        rw [hstep]
        exact ⟨rfl, rfl, rfl, rfl, rfl, rfl, rfl⟩
      exact ih (performWrite sizeOf st e.id e now).1 (mapSet m e.id e) _
        (hit + 1) miss (tick + 1) hlen2 hshape2 hex2

/-- `getByIndex` on an unindexed field returns the empty array and leaves
the state untouched. -/
theorem getByIndex_none {V : Type} [DecidableEq V] (sizeOf : Shard V → Nat)
    (st : FMState V) (g : String) (x : V) (now : Nat)
    (h : mapGet st.indices g = none) :
    getByIndex sizeOf st g x now = ([], st) := by
  unfold getByIndex
  rw [h]

/-- The id-resolution loop of `getByIndex`: when every id is present in the
single cached shard, each `read` is a cache hit and the state is never
changed. -/
theorem getByIndex_fold {V : Type} [DecidableEq V] (sizeOf : Shard V → Nat)
    (now : Nat) (st : FMState V) (m : Shard V) (t0 sz : Nat)
    (hcache : st.dataCache.cache =
      [(fileName 0, { value := m, accessTime := t0, size := sz })]) :
    ∀ (ids : List String) (acc : List (Option (DatabaseEntry V))),
    (∀ id ∈ ids, (mapGet m id).isSome) →
    ids.foldl (fun acc id =>
      let r := fmRead sizeOf acc.2 id now
      (acc.1 ++ [r.1], r.2)) (acc, st)
      = (acc ++ ids.map (fun id => mapGet m id), st) := by
  intro ids
  induction ids with
  | nil =>
    intro acc _
    simp
  | cons i rest ih =>
    intro acc hall
    have hr : fmRead sizeOf st i now = (mapGet m i, st) := by
      unfold fmRead
      rw [hcache]
      rw [List.find?_cons_of_pos _ (by exact hall i (List.mem_cons_self i rest))]
    rw [List.foldl_cons]
    dsimp only
    rw [hr]
    rw [ih (acc ++ [mapGet m i])
      (fun id hid => hall id (List.mem_cons_of_mem i hid))]
    rw [List.append_assoc]
    rfl

/-- From the single-shard shape and index exactness, the full C3
conclusion: `getByIndex` answers every value query with exactly the
matching records, id-sets are never empty, and unindexed fields yield
nothing. -/
theorem c3_exact_conclusion {V : Type} [DecidableEq V] (sizeOf : Shard V → Nat)
    (fsOk : Nat → Bool) (f : String) (now : Nat) (st : FMState V)
    (m : Shard V) (im : IndexMap V) (hit miss tick : Nat)
    (hshape : C3Shape fsOk sizeOf f now st m im hit miss tick)
    (hex : ExactIdx f im m) :
    (∀ x : V, ∃ ids : List String, ids.Nodup ∧
      (∀ id, id ∈ ids ↔ matchesF f m x id) ∧
      (getByIndex sizeOf st f x now).1 = ids.map (fun id => mapGet m id)) ∧
    (∀ g im2 x s, mapGet st.indices g = some im2 →
      mapGet im2 x = some s → s ≠ []) ∧
    (∀ g x, mapGet st.indices g = none →
      getByIndex sizeOf st g x now = ([], st)) := by
  obtain ⟨s1, s2, s3, s4, s5, s6, s7⟩ := hshape
  have hgi : mapGet st.indices f = some im := by
    rw [s4, mapGet_cons, if_pos rfl]
  have hcache : st.dataCache.cache =
      [(fileName 0, { value := m, accessTime := now, size := sizeOf m })] := by
    rw [s2]
  refine ⟨?_, ?_, ?_⟩
  · intro x
    cases hx : mapGet im x with
    | none =>
      refine ⟨[], List.nodup_nil, ?_, ?_⟩
      · intro id
        simp only [List.not_mem_nil, false_iff]
        exact hex.2 x hx id
      · show (getByIndex sizeOf st f x now).1 = []
        unfold getByIndex
        rw [hgi]
        dsimp only
        rw [hx]
    | some s =>
      obtain ⟨hne, hnd, hmem⟩ := hex.1 x s hx
      have hall : ∀ id ∈ s, (mapGet m id).isSome := by
        intro id hid
        obtain ⟨e, he, -⟩ := (hmem id).mp hid
        rw [he]
        rfl
      refine ⟨s, hnd, hmem, ?_⟩
      show (getByIndex sizeOf st f x now).1 = s.map (fun id => mapGet m id)
      unfold getByIndex
      rw [hgi]
      dsimp only
      rw [hx]
      dsimp only
      rw [getByIndex_fold sizeOf now st m now (sizeOf m) hcache s [] hall]
      rw [List.nil_append]
  · intro g im2 x s hg hxs
    rw [s4, mapGet_cons] at hg
    by_cases hfg : f = g
    · rw [if_pos hfg] at hg
      have him := Option.some.inj hg
      subst him
      exact (hex.1 x s hxs).1
    · rw [if_neg hfg, mapGet_nil] at hg
      exact Option.noConfusion hg
  · intro g x hg
    exact getByIndex_none sizeOf st g x now hg

/-- C3 counterexample: save a record with `f = 1`, drain it to the shard
store, then remove it through the facade. The table then holds no records,
yet `getByIndex(f, 1)` still returns one result: `remove` only deletes from
the in-memory map and never reaches `updateIndices`, so the claimed
exactness fails under remove operations. -/
theorem c3_counterexample :
    ((getByIndex (fun _ => 0) c3sys.fm "f" 1 0).1).length = 1 ∧
    (dmGetAll c3sys).length = 0 := by
  constructor
  · decide
  · decide

/-- C3: over sequences of insert and update operations (shard-store writes
staying within one shard file's capacity, with a reliable disk and the
shard within the cache byte budget), the index on `f` is exact: for every
value `x`, `getByIndex(f, x)` returns exactly one `read` result per record
whose `value[f] == x` — a duplicate-free id-set resolving to precisely the
matching records, no more, no fewer; no id-set in the index map is ever
empty, and a field without an index yields the empty array.  Remove
operations are excluded: they are not propagated to the index (see the
counterexample). -/
theorem c3_index_exactness {V : Type} [DecidableEq V] (sizeOf : Shard V → Nat)
    (fsOk : Nat → Bool) (f : String) (es : List (DatabaseEntry V)) (now : Nat)
    (hfs : ∀ n, fsOk n = true)
    (hsize : ∀ s : Shard V, sizeOf s ≤ 200 * 1024 * 1024)
    (hlen : es.length ≤ MAX_ENTRIES_PER_FILE) :
    (∀ x : V, ∃ ids : List String, ids.Nodup ∧
      (∀ id, id ∈ ids ↔ matchesF f (shardFold ([] : Shard V) es) x id) ∧
      (getByIndex sizeOf
        (writeSeq sizeOf (fmCreateIndex (fmInit V fsOk) f) es now) f x now).1
        = ids.map (fun id => mapGet (shardFold ([] : Shard V) es) id)) ∧
    (∀ g im2 x s,
      mapGet (writeSeq sizeOf (fmCreateIndex (fmInit V fsOk) f) es now).indices g
        = some im2 →
      mapGet im2 x = some s → s ≠ []) ∧
    (∀ g x,
      mapGet (writeSeq sizeOf (fmCreateIndex (fmInit V fsOk) f) es now).indices g
        = none →
      getByIndex sizeOf (writeSeq sizeOf (fmCreateIndex (fmInit V fsOk) f) es now)
        g x now
        = ([], writeSeq sizeOf (fmCreateIndex (fmInit V fsOk) f) es now)) := by
  cases es with
  | nil =>
    refine ⟨?_, ?_, ?_⟩
    · intro x
      refine ⟨[], List.nodup_nil, ?_, ?_⟩
      · intro id
        simp only [List.not_mem_nil, false_iff]
        intro hm
        obtain ⟨e2, he2, -⟩ := hm
        exact Option.noConfusion he2
      · have hgi : mapGet (writeSeq sizeOf (fmCreateIndex (fmInit V fsOk) f)
            [] now).indices f = some [] := by
          show mapGet [(f, ([] : IndexMap V))] f = some []
          rw [mapGet_cons, if_pos rfl]
        show (getByIndex sizeOf
          (writeSeq sizeOf (fmCreateIndex (fmInit V fsOk) f) [] now) f x now).1
          = List.map (fun id => mapGet (shardFold ([] : Shard V) []) id) []
        unfold getByIndex
        rw [hgi]
        dsimp only
        rw [mapGet_nil]
        rfl
    · intro g im2 x s hg hxs
      have hind : (writeSeq sizeOf (fmCreateIndex (fmInit V fsOk) f) [] now).indices
          = [(f, ([] : IndexMap V))] := rfl
      rw [hind, mapGet_cons] at hg
      by_cases hfg : f = g
      · rw [if_pos hfg] at hg
        have him := Option.some.inj hg
        subst him
        rw [mapGet_nil] at hxs
        exact Option.noConfusion hxs
      · rw [if_neg hfg, mapGet_nil] at hg
        exact Option.noConfusion hg
    · intro g x hg
      exact getByIndex_none _ _ _ _ _ hg
  | cons e rest =>
    have hbase := c3_write_base sizeOf fsOk hfs hsize [(f, ([] : IndexMap V))]
      e.id e now (fmCreateIndex (fmInit V fsOk) f) rfl rfl rfl rfl rfl rfl rfl
    rw [updateIndices_singleton f ([] : IndexMap V) e.id e.value IdxOp.add] at hbase
    have hex1 : ExactIdx f (idxApply [] e.id e.value f IdxOp.add) [(e.id, e)] := by
      have h0 : ExactIdx f ([] : IndexMap V) ([] : Shard V) := by
        constructor
        · intro x s hs
          exact Option.noConfusion hs
        · intro x _ id hm
          obtain ⟨e2, he2, -⟩ := hm
          exact Option.noConfusion he2
      have hadd := ExactIdx_add f [] [] e.id e h0 rfl
      rw [mapSet_nil] at hadd
      exact hadd
    have hlen1 : ([(e.id, e)] : Shard V).length + rest.length
        ≤ MAX_ENTRIES_PER_FILE := by
      rw [List.length_cons] at hlen
      simp only [List.length_singleton]
      omega
    have hshape1 : C3Shape fsOk sizeOf f now
        (performWrite sizeOf (fmCreateIndex (fmInit V fsOk) f) e.id e now).1
        [(e.id, e)] (idxApply [] e.id e.value f IdxOp.add) 0 1 1 := by
      rw [hbase]
      exact ⟨rfl, rfl, rfl, rfl, rfl, rfl, rfl⟩
    obtain ⟨im2, hit2, miss2, tick2, hshape2, hex2⟩ :=
      c3_inv sizeOf fsOk hfs hsize f now rest
        (performWrite sizeOf (fmCreateIndex (fmInit V fsOk) f) e.id e now).1
        [(e.id, e)] _ 0 1 1 hlen1 hshape1 hex1
    have hws : writeSeq sizeOf (fmCreateIndex (fmInit V fsOk) f) (e :: rest) now
        = writeSeq sizeOf
            (performWrite sizeOf (fmCreateIndex (fmInit V fsOk) f) e.id e now).1
            rest now := rfl
    have hsf : shardFold ([] : Shard V) (e :: rest)
        = shardFold [(e.id, e)] rest := rfl
    rw [hws, hsf]
    exact c3_exact_conclusion sizeOf fsOk f now _ _ im2 hit2 miss2 tick2
      hshape2 hex2

/-- C3 witness: two records with `f = 1` written through the shard store
with an index on `f`; the amended exactness theorem applies with its
hypotheses discharged concretely. -/
theorem c3_index_exactness_witness :
    c3Es.length ≤ MAX_ENTRIES_PER_FILE ∧
    ((∀ x : Nat, ∃ ids : List String, ids.Nodup ∧
      (∀ id, id ∈ ids ↔ matchesF "f" (shardFold ([] : Shard Nat) c3Es) x id) ∧
      (getByIndex (fun _ => 0)
        (writeSeq (fun _ => 0) (fmCreateIndex (fmInit Nat (fun _ => true)) "f")
          c3Es 0) "f" x 0).1
        = ids.map (fun id => mapGet (shardFold ([] : Shard Nat) c3Es) id)) ∧
    (∀ g im2 x s,
      mapGet (writeSeq (fun _ => 0)
        (fmCreateIndex (fmInit Nat (fun _ => true)) "f") c3Es 0).indices g
        = some im2 →
      mapGet im2 x = some s → s ≠ []) ∧
    (∀ g x,
      mapGet (writeSeq (fun _ => 0)
        (fmCreateIndex (fmInit Nat (fun _ => true)) "f") c3Es 0).indices g
        = none →
      getByIndex (fun _ => 0)
        (writeSeq (fun _ => 0) (fmCreateIndex (fmInit Nat (fun _ => true)) "f")
          c3Es 0) g x 0
        = ([], writeSeq (fun _ => 0)
            (fmCreateIndex (fmInit Nat (fun _ => true)) "f") c3Es 0))) :=
  ⟨by decide,
   c3_index_exactness (fun _ => 0) (fun _ => true) "f" c3Es 0 (fun _ => rfl)
     (fun _ => Nat.zero_le _) (by decide)⟩

end MSDB
